import Mathlib

/-!
Verification development for the demoinfocs2_lite demo parser.

The Rust sources are shallowly embedded: machine integers are modelled as
`Nat`/`Int` with explicit `% 2^w` where the Rust code can wrap or truncate,
bit streams as `List Bool` (little-endian: the head of the list is the next
bit read, and within a fixed-width read the first bit is the least
significant, matching `bitstream_io::LittleEndian`), byte streams as
`List Nat` with entries below 256, and fallible Rust functions returning
`Result<_, std::io::Error>` as `Except String`.  Rust panics (out-of-bounds
array indexing, shift overflow) are modelled as errors, matching the fact
that the Rust program aborts rather than producing a value.
-/

namespace DemoInfo

abbrev Err := String

def eofErr : Err := "unexpected end of stream"

/-! ## Byte-level varint reader (src/src/bit.rs, `impl_read_varint`, byte-aligned branch)

`read_varint_u64` reads 7-bit little-endian groups from `u8`s, with the MSB of
each byte as a continuation flag.  `value |= ((v & 0x7F) as u64) << shift`
truncates at 64 bits (modelled with `% 2^64`); a shift amount of 64 or more
is a Rust shift-overflow panic, modelled as an error. -/

def readVarintU64BytesAux : List Nat → Nat → Nat → Except Err (Nat × List Nat)
  | [], _, _ => .error eofErr
  | b :: rest, shift, acc =>
    if 64 ≤ shift then .error "attempt to shift left with overflow"
    else if b &&& 0x80 ≠ 0 then
      readVarintU64BytesAux rest (shift + 7) (acc ||| (((b &&& 0x7F) <<< shift) % 2 ^ 64))
    else .ok (acc ||| (((b &&& 0x7F) <<< shift) % 2 ^ 64), rest)

/-- Embedding of `read_varint_u64` (src/src/bit.rs lines 20-55) on a byte
stream. -/
def read_varint_u64 (bytes : List Nat) : Except Err (Nat × List Nat) :=
  readVarintU64BytesAux bytes 0 0

/-- Interpretation of a `u64` bit pattern as an `i64` (two's complement). -/
def i64OfU64 (n : Nat) : Int :=
  if n < 2 ^ 63 then (n : Int) else (n : Int) - 2 ^ 64

/-- Embedding of `read_varint_i64` (src/src/bit.rs lines 57-65): read the
unsigned varint `v`, then return `(v >> 1) as i64` when `v` is even and
`(!(v >> 1)) as i64` (bitwise complement in `u64`) when it is odd. -/
def read_varint_i64 (bytes : List Nat) : Except Err (Int × List Nat) :=
  match read_varint_u64 bytes with
  | .error e => .error e
  | .ok (v, rest) =>
    if v % 2 = 1 then .ok (i64OfU64 (2 ^ 64 - 1 - v / 2), rest)
    else .ok (i64OfU64 (v / 2), rest)

/-- Canonical 7-bit-group little-endian varint encoding of a natural number
(the encoding the spec's round-trip property quantifies over; the repository
itself never encodes). -/
def encodeVarint (v : Nat) : List Nat :=
  if h : v < 128 then [v]
  else (v % 128 + 128) :: encodeVarint (v / 128)
  decreasing_by exact Nat.div_lt_self (by omega) (by omega)

/-- Standard zig-zag mapping from `i64` values to `u64` bit patterns:
`v ≥ 0 ↦ 2v`, `v < 0 ↦ -2v - 1`. -/
def zigzag (v : Int) : Nat :=
  if 0 ≤ v then (2 * v).toNat else (-2 * v - 1).toNat

lemma encodeVarint_small {v : Nat} (h : v < 128) : encodeVarint v = [v] := by
  rw [encodeVarint]; simp [h]

lemma encodeVarint_large {v : Nat} (h : ¬ v < 128) :
    encodeVarint v = (v % 128 + 128) :: encodeVarint (v / 128) := by
  rw [encodeVarint]; simp [h]

lemma lor_mul_pow {a x s : Nat} (h : a < 2 ^ s) :
    a ||| x * 2 ^ s = a + x * 2 ^ s := by
  have := Nat.mul_add_lt_is_or (i := s) h x
  rw [Nat.lor_comm, Nat.mul_comm x (2 ^ s)]
  omega

lemma and_127_eq_mod (x : Nat) : x &&& 127 = x % 128 := by
  have h := Nat.and_pow_two_sub_one_eq_mod x 7
  norm_num at h
  exact h

lemma and_128_of_lt {v : Nat} (h : v < 128) : v &&& 128 = 0 := by
  apply Nat.eq_of_testBit_eq
  intro i
  simp only [Nat.testBit_and, Nat.zero_testBit]
  rcases Nat.lt_or_ge i 7 with hi | hi
  · have h128 : (128 : Nat).testBit i = false := by
      interval_cases i <;> decide
    simp [h128]
  · have hvi : v < 2 ^ i := by
      have h7 : (2 : Nat) ^ 7 ≤ 2 ^ i := Nat.pow_le_pow_right (by omega) hi
      have h7v : (2 : Nat) ^ 7 = 128 := by norm_num
      omega
    simp [Nat.testBit_lt_two_pow hvi]

lemma and_128_add {x : Nat} (h : x < 128) : (x + 128) &&& 128 ≠ 0 := by
  intro hz
  have hdiv : (x + 128) / 2 ^ 7 = 1 := by omega
  have htb : (x + 128).testBit 7 = true := by
    rw [Nat.testBit_to_div_mod, hdiv]
    decide
  have hcontra := congrArg (fun n => n.testBit 7) hz
  simp only [Nat.testBit_and, Nat.zero_testBit, htb, Bool.true_and] at hcontra
  have h128 : (128 : Nat).testBit 7 = true := by decide
  rw [h128] at hcontra
  exact absurd hcontra (by decide)

lemma readVarintU64BytesAux_encode (v : Nat) :
    ∀ shift acc, shift < 64 → v < 2 ^ (64 - shift) → acc < 2 ^ shift →
      readVarintU64BytesAux (encodeVarint v) shift acc =
        .ok (acc + v * 2 ^ shift, []) := by
  induction v using Nat.strong_induction_on with
  | _ v ih =>
    intro shift acc hshift hv hacc
    have hpowmul : 2 ^ (64 - shift) * 2 ^ shift = 2 ^ 64 := by
      rw [← pow_add]; congr 1; omega
    have hppos : (0 : Nat) < 2 ^ shift := Nat.pos_pow_of_pos shift (by omega)
    by_cases h : v < 128
    · rw [encodeVarint_small h]
      have hb7 : v &&& 0x7F = v := by
        rw [show (0x7F : Nat) = 127 from rfl, and_127_eq_mod, Nat.mod_eq_of_lt h]
      have hb8 : v &&& 0x80 = 0 := and_128_of_lt h
      have hmul : v * 2 ^ shift < 2 ^ 64 := by
        have h1 : v * 2 ^ shift < 2 ^ (64 - shift) * 2 ^ shift :=
          Nat.mul_lt_mul_of_lt_of_le hv (le_refl _) hppos
        omega
      show (if 64 ≤ shift then _ else _) = _
      rw [if_neg (by omega : ¬ 64 ≤ shift), if_neg (by simp [hb8]),
        hb7, Nat.shiftLeft_eq, Nat.mod_eq_of_lt hmul, lor_mul_pow hacc]
    · rw [encodeVarint_large h]
      have hb7 : (v % 128 + 128) &&& 0x7F = v % 128 := by
        rw [show (0x7F : Nat) = 127 from rfl, and_127_eq_mod]
        omega
      have hb8 : (v % 128 + 128) &&& 0x80 ≠ 0 := and_128_add (by omega)
      have hstep : shift < 57 := by
        by_contra hc
        have h1 : (64 - shift) ≤ 7 := by omega
        have h2 : 2 ^ (64 - shift) ≤ 2 ^ 7 := Nat.pow_le_pow_right (by omega) h1
        have h3 : (2 : Nat) ^ 7 = 128 := by norm_num
        omega
      have hmul : v % 128 * 2 ^ shift < 2 ^ 64 := by
        have h1 : v % 128 < 2 ^ (64 - shift) := by
          have := Nat.mod_le v 128
          omega
        have h2 : v % 128 * 2 ^ shift < 2 ^ (64 - shift) * 2 ^ shift :=
          Nat.mul_lt_mul_of_lt_of_le h1 (le_refl _) hppos
        omega
      have hppow : (2 : Nat) ^ (shift + 7) = 2 ^ shift * 128 := by
        rw [pow_add]; norm_num
      have hacc2 : acc + v % 128 * 2 ^ shift < 2 ^ (shift + 7) := by
        have h1 : v % 128 * 2 ^ shift ≤ 127 * 2 ^ shift :=
          Nat.mul_le_mul_right _ (by omega)
        omega
      have hv2 : v / 128 < 2 ^ (64 - (shift + 7)) := by
        have h2 : 2 ^ (64 - shift) = 2 ^ (64 - (shift + 7)) * 128 := by
          rw [show (128 : Nat) = 2 ^ 7 from rfl, ← pow_add]
          congr 1; omega
        rw [Nat.div_lt_iff_lt_mul (by omega : (0:Nat) < 128)]
        omega
      show (if 64 ≤ shift then _ else _) = _
      rw [if_neg (by omega : ¬ 64 ≤ shift), if_pos (by simpa using hb8),
        hb7, Nat.shiftLeft_eq, Nat.mod_eq_of_lt hmul, lor_mul_pow hacc,
        ih (v / 128) (Nat.div_lt_self (by omega) (by omega)) (shift + 7)
          (acc + v % 128 * 2 ^ shift) (by omega) hv2 hacc2]
      congr 2
      rw [hppow]
      have hdm : 128 * (v / 128) + v % 128 = v := Nat.div_add_mod v 128
      have hmulsplit : v * 2 ^ shift = v % 128 * 2 ^ shift + v / 128 * (2 ^ shift * 128) := by
        nlinarith [hdm]
      omega

/-- Decoding the canonical varint encoding of any `u64` value returns that
value and consumes the whole encoding. -/
lemma read_varint_u64_encode {v : Nat} (hv : v < 2 ^ 64) :
    read_varint_u64 (encodeVarint v) = .ok (v, []) := by
  have := readVarintU64BytesAux_encode v 0 0 (by omega) (by simpa using hv)
    (by norm_num)
  simpa [read_varint_u64] using this

/-- C4.  Varint round-trip: decoding the 7-bit-group little-endian varint
encoding of any `u64` value `v` with `read_varint_u64` returns `v`; and
decoding the standard zig-zag varint encoding of any `i64` value `v`
(including `INT64_MIN = -2^63`) with `read_varint_i64` returns `v`. -/
theorem varint_round_trip :
    (∀ v : Nat, v < 2 ^ 64 → read_varint_u64 (encodeVarint v) = .ok (v, [])) ∧
    (∀ v : Int, -2 ^ 63 ≤ v → v < 2 ^ 63 →
      read_varint_i64 (encodeVarint (zigzag v)) = .ok (v, [])) := by
  constructor
  · intro v hv; exact read_varint_u64_encode hv
  · intro v hlo hhi
    unfold read_varint_i64
    by_cases h : 0 ≤ v
    · have hz : zigzag v = (2 * v).toNat := by simp [zigzag, h]
      have hlt : zigzag v < 2 ^ 64 := by
        rw [hz]; omega
      rw [read_varint_u64_encode hlt]
      dsimp only
      have he : zigzag v % 2 = 0 := by rw [hz]; omega
      rw [if_neg (by omega)]
      have : zigzag v / 2 = v.toNat := by rw [hz]; omega
      rw [this]
      have : i64OfU64 v.toNat = v := by
        unfold i64OfU64
        rw [if_pos (by omega)]
        omega
      rw [this]
    · have hz : zigzag v = (-2 * v - 1).toNat := by simp [zigzag, h]
      have hlt : zigzag v < 2 ^ 64 := by rw [hz]; omega
      rw [read_varint_u64_encode hlt]
      dsimp only
      have ho : zigzag v % 2 = 1 := by rw [hz]; omega
      rw [if_pos ho]
      have hdiv : (zigzag v / 2 : Nat) = (-v - 1).toNat := by rw [hz]; omega
      rw [hdiv]
      have : i64OfU64 (2 ^ 64 - 1 - (-v - 1).toNat) = v := by
        unfold i64OfU64
        rw [if_neg (by omega)]
        omega
      rw [this]

/-- Witness for C4 at concrete inputs, including `INT64_MIN`. -/
theorem varint_round_trip_witness :
    read_varint_u64 (encodeVarint 300) = .ok (300, []) ∧
    read_varint_i64 (encodeVarint (zigzag (-(2 ^ 63)))) = .ok (-(2 ^ 63), []) :=
  ⟨varint_round_trip.1 300 (by norm_num),
   varint_round_trip.2 (-(2 ^ 63)) (by norm_num) (by norm_num)⟩

/-! ## EntityList (src/src/entity/list.rs)

Constants of the source: `MAX_ENTITIES_IN_LIST = 512`, `MAX_ENTITY_LISTS = 64`,
`ENTITY_CHUNK_SHIFT = 9`, `ENTITY_OFFSET_MASK = 511`, `MAX_EDICT_BITS = 14`,
`ENTITY_HANDLE_INDEX_MASK = 2^14 - 1`.

`EntityItem` holds `index: u32`, `serial: u32`, `item: Box<dyn Any>` and a
shared serializer reference.  The payload is modelled by a type parameter `α`
(the `Any`-downcast in `get_entity_by_handle` always succeeds for the single
modelled payload type, so it is the identity); the serializer reference is not
observed by any claim and is omitted.  The chunk array and the slot arrays are
modelled as total functions guarded exactly where the source checks bounds;
the source's `get_unchecked` accesses are all dominated by the `idx >=
MAX_ENTITY_LISTS` guards plus the `& ENTITY_OFFSET_MASK` masking, so the model
is total. -/

structure EntityItem (α : Type) where
  index : Nat
  serial : Nat
  item : α
deriving DecidableEq

/-- Embedding of `EntityItem::get_handle`: `(serial << 14) | index`. -/
def EntityItem.get_handle (e : EntityItem α) : Nat :=
  (e.serial <<< 14) ||| e.index

structure EntityChunk (α : Type) where
  counter : Nat
  entities : Nat → Option α

structure EntityList (α : Type) where
  entity_chunk : Nat → Option (EntityChunk α)

namespace EntityList

def new : EntityList α := ⟨fun _ => none⟩

/-- Embedding of `EntityList::chunk` (and `chunk_mut`, which differs only in
mutability): `None` when `idx >= MAX_ENTITY_LISTS`. -/
def chunk (l : EntityList α) (idx : Nat) : Option (EntityChunk α) :=
  if 64 ≤ idx then none else l.entity_chunk idx

/-- Embedding of `EntityList::get` (and `get_mut`, which differs only in
mutability). -/
def get (l : EntityList α) (idx : Nat) : Option α :=
  match l.chunk (idx >>> 9) with
  | none => none
  | some c => c.entities (idx &&& 511)

/-- Embedding of `EntityList::delete`; the returned pair is (the `take`n
entity, the list after the mutation).  A chunk whose counter reaches zero is
released.  The `counter -= 1` is a `Nat` subtraction; it is exercised only
when the slot was occupied, where the proved chunk invariant keeps the
counter positive. -/
def delete (l : EntityList α) (idx : Nat) : Option α × EntityList α :=
  match l.chunk (idx >>> 9) with
  | none => (none, l)
  | some c =>
    match c.entities (idx &&& 511) with
    | none => (none, l)
    | some e =>
      let c2 : EntityChunk α :=
        ⟨c.counter - 1, Function.update c.entities (idx &&& 511) none⟩
      if c2.counter = 0 then
        (some e, ⟨Function.update l.entity_chunk (idx >>> 9) none⟩)
      else
        (some e, ⟨Function.update l.entity_chunk (idx >>> 9) (some c2)⟩)

/-- Embedding of `EntityList::insert`; the returned pair is (the replaced
occupant, the list after the mutation).  Indices whose chunk index reaches
`MAX_ENTITY_LISTS` are rejected before any mutation. -/
def insert (l : EntityList α) (idx : Nat) (entity : α) : Option α × EntityList α :=
  if 64 ≤ idx >>> 9 then (none, l)
  else
    let c : EntityChunk α :=
      match l.entity_chunk (idx >>> 9) with
      | some c => c
      | none => ⟨0, fun _ => none⟩
    let old := c.entities (idx &&& 511)
    let c2 : EntityChunk α :=
      ⟨if old.isNone then c.counter + 1 else c.counter,
       Function.update c.entities (idx &&& 511) (some entity)⟩
    (old, ⟨Function.update l.entity_chunk (idx >>> 9) (some c2)⟩)

/-- Embedding of `EntityList::get_entity_by_handle`.  The stored `serial` is a
`u32` and the handle a `u64`, so `(handle >> MAX_EDICT_BITS) as u32`
truncates, modelled by `% 2^32`. -/
def get_entity_by_handle (l : EntityList (EntityItem α)) (handle : Nat) : Option α :=
  match l.get (handle &&& (2 ^ 14 - 1)) with
  | none => none
  | some e => if e.serial ≠ (handle >>> 14) % 2 ^ 32 then none else some e.item

end EntityList

/-! ### Index decomposition arithmetic -/

lemma shiftRight9_eq (i : Nat) : i >>> 9 = i / 512 := by
  simp [Nat.shiftRight_eq_div_pow]

lemma and511_eq (i : Nat) : i &&& 511 = i % 512 := by
  have h := Nat.and_pow_two_sub_one_eq_mod i 9
  norm_num at h
  exact h

lemma index_decomp (i : Nat) : 512 * (i >>> 9) + (i &&& 511) = i := by
  rw [shiftRight9_eq, and511_eq]
  exact Nat.div_add_mod i 512

lemma index_eq_of_parts {i j : Nat} (h1 : i >>> 9 = j >>> 9)
    (h2 : i &&& 511 = j &&& 511) : i = j := by
  have hi := index_decomp i
  have hj := index_decomp j
  omega

lemma chunkIdx_ge_iff (i : Nat) : 64 ≤ i >>> 9 ↔ 32768 ≤ i := by
  rw [shiftRight9_eq]
  omega

/-! ### EntityList `get` after `insert` / `delete` -/

namespace EntityList

lemma get_new (i : Nat) : (new : EntityList α).get i = none := by
  simp [get, chunk, new]

lemma get_insert (l : EntityList α) (i j : Nat) (v : α) :
    ((l.insert i v).2).get j = if i < 32768 ∧ j = i then some v else l.get j := by
  by_cases hoob : 64 ≤ i >>> 9
  · have hi32 : 32768 ≤ i := (chunkIdx_ge_iff i).mp hoob
    simp only [insert, if_pos hoob]
    rw [if_neg (by omega : ¬ (i < 32768 ∧ j = i))]
  · have hi : i < 32768 := by
      rw [chunkIdx_ge_iff] at hoob; omega
    simp only [insert, if_neg hoob, get, chunk]
    by_cases hcj : 64 ≤ j >>> 9
    · have hj32 : 32768 ≤ j := (chunkIdx_ge_iff j).mp hcj
      rw [if_pos hcj, if_neg (by omega : ¬ (i < 32768 ∧ j = i)), if_pos hcj]
    · rw [if_neg hcj, if_neg hcj]
      by_cases hcc : j >>> 9 = i >>> 9
      · rw [hcc, Function.update_same]
        by_cases hee : j &&& 511 = i &&& 511
        · have hji : j = i := index_eq_of_parts hcc hee
          rw [if_pos (show i < 32768 ∧ j = i from ⟨hi, hji⟩)]
          subst hji
          simp
        · have hji : j ≠ i := fun hji => hee (by rw [hji])
          rw [if_neg (by tauto : ¬ (i < 32768 ∧ j = i))]
          simp only [Function.update_noteq hee]
          cases hc : l.entity_chunk (i >>> 9) with
          | none => simp [hcc, hc]
          | some c => simp [hcc, hc]
      · have hji : j ≠ i := fun hji => hcc (by rw [hji])
        rw [Function.update_noteq hcc, if_neg (by tauto : ¬ (i < 32768 ∧ j = i))]

/-! ### Chunk refcount invariant -/

/-- Number of occupied (`Some`) slots of a chunk's 512-slot array. -/
def countSome (f : Nat → Option α) : Nat :=
  ∑ j ∈ Finset.range 512, if (f j).isSome then 1 else 0

/-- Chunk invariant of the spec: every allocated chunk's counter equals the
number of occupied slots, and a chunk whose counter reaches zero has been
released (no allocated chunk has counter 0). -/
def inv (l : EntityList α) : Prop :=
  ∀ ci c, l.entity_chunk ci = some c → c.counter = countSome c.entities ∧ c.counter ≠ 0

lemma countSome_none : countSome (fun _ => (none : Option α)) = 0 := by
  simp [countSome]

lemma countSome_update (f : Nat → Option α) {j : Nat} (hj : j < 512) (v : Option α) :
    countSome (Function.update f j v) + (if (f j).isSome then 1 else 0)
      = countSome f + (if v.isSome then 1 else 0) := by
  have hjm : j ∈ Finset.range 512 := Finset.mem_range.mpr hj
  unfold countSome
  rw [← Finset.add_sum_erase _ _ hjm, ← Finset.add_sum_erase _ _ hjm,
    Function.update_same]
  have hsum : ∑ k ∈ (Finset.range 512).erase j,
      (if ((Function.update f j v) k).isSome then 1 else 0)
      = ∑ k ∈ (Finset.range 512).erase j, (if (f k).isSome then 1 else 0) := by
    apply Finset.sum_congr rfl
    intro k hk
    rw [Function.update_noteq (Finset.ne_of_mem_erase hk)]
  rw [hsum]
  omega

lemma one_le_countSome {f : Nat → Option α} {j : Nat} (hj : j < 512)
    (h : (f j).isSome) : 1 ≤ countSome f := by
  unfold countSome
  have hjm : j ∈ Finset.range 512 := Finset.mem_range.mpr hj
  have hle := Finset.single_le_sum (f := fun k => if (f k).isSome then 1 else 0)
    (fun k _ => Nat.zero_le _) hjm
  simp only [h, if_true] at hle
  exact hle

lemma eq_none_of_countSome_one {f : Nat → Option α} {i j : Nat}
    (hcnt : countSome f = 1) (hi : i < 512) (hj : j < 512) (hij : j ≠ i)
    (hsome : (f i).isSome) : f j = none := by
  by_contra hne
  have hjs : (f j).isSome := Option.ne_none_iff_isSome.mp hne
  have h2 : 2 ≤ countSome f := by
    unfold countSome
    calc (2 : Nat) = ∑ k ∈ ({j, i} : Finset Nat), (if (f k).isSome then 1 else 0) := by
          rw [Finset.sum_pair hij, if_pos hjs, if_pos hsome]
    _ ≤ _ := Finset.sum_le_sum_of_subset (by
          intro k hk
          simp only [Finset.mem_insert, Finset.mem_singleton] at hk
          rcases hk with rfl | rfl <;> exact Finset.mem_range.mpr (by omega))
  omega

lemma get_delete (l : EntityList α) (hinv : l.inv) (i j : Nat) :
    ((l.delete i).2).get j = if j = i then none else l.get j := by
  unfold delete
  cases hc : l.chunk (i >>> 9) with
  | none =>
    simp only []
    by_cases hji : j = i
    · rw [if_pos hji, hji]
      simp [get, hc]
    · rw [if_neg hji]
  | some c =>
    simp only []
    cases he : c.entities (i &&& 511) with
    | none =>
      simp only []
      by_cases hji : j = i
      · rw [if_pos hji, hji]
        simp [get, hc, he]
      · rw [if_neg hji]
    | some e =>
      have hoob : ¬ 64 ≤ i >>> 9 := by
        intro hco; simp [chunk, hco] at hc
      have hc2 : l.entity_chunk (i >>> 9) = some c := by
        simpa [chunk, hoob] using hc
      have hmask : i &&& 511 < 512 := by rw [and511_eq]; omega
      simp only []
      by_cases hcnt : c.counter - 1 = 0
      · rw [if_pos hcnt]
        by_cases hji : j = i
        · subst hji
          simp [get, chunk, hoob]
        · by_cases hcj : 64 ≤ j >>> 9
          · simp [get, chunk, hcj, hji]
          · by_cases hcc : j >>> 9 = i >>> 9
            · -- the released chunk held a single occupant, slot `i &&& 511`
              obtain ⟨hcount, hnz⟩ := hinv (i >>> 9) c hc2
              have hone : countSome c.entities = 1 := by omega
              have hjm : j &&& 511 < 512 := by rw [and511_eq]; omega
              have hne : j &&& 511 ≠ i &&& 511 := by
                intro heq; exact hji (index_eq_of_parts hcc heq)
              have hnone : c.entities (j &&& 511) = none :=
                eq_none_of_countSome_one hone hmask hjm hne (by rw [he]; rfl)
              have hupd : Function.update l.entity_chunk (i >>> 9) none (j >>> 9)
                  = none := by rw [hcc, Function.update_same]
              simp only [get, chunk, if_neg hcj, if_neg hoob, hupd, hcc, hc2,
                hnone, ite_self]
            · simp [get, chunk, hcj, hji, Function.update_noteq hcc]
      · rw [if_neg hcnt]
        by_cases hji : j = i
        · subst hji
          simp [get, chunk, hoob]
        · by_cases hcj : 64 ≤ j >>> 9
          · simp [get, chunk, hcj, hji]
          · by_cases hcc : j >>> 9 = i >>> 9
            · have hne : j &&& 511 ≠ i &&& 511 := by
                intro heq; exact hji (index_eq_of_parts hcc heq)
              have hupd : Function.update l.entity_chunk (i >>> 9)
                    (some (⟨c.counter - 1,
                      Function.update c.entities (i &&& 511) none⟩ : EntityChunk α))
                    (j >>> 9)
                  = some ⟨c.counter - 1, Function.update c.entities (i &&& 511) none⟩ := by
                rw [hcc, Function.update_same]
              simp only [get, chunk, if_neg hcj, if_neg hoob, hupd, hcc, hc2,
                Function.update_noteq hne, if_neg hji]
            · simp [get, chunk, hcj, hji, Function.update_noteq hcc]

/-! ### Invariant preservation -/

lemma inv_new : (new : EntityList α).inv := by
  intro ci c hc
  simp [new] at hc

lemma inv_insert (l : EntityList α) (hinv : l.inv) (i : Nat) (v : α) :
    ((l.insert i v).2).inv := by
  unfold insert
  by_cases hoob : 64 ≤ i >>> 9
  · rw [if_pos hoob]; exact hinv
  · rw [if_neg hoob]
    intro ci cc hcc
    simp only [] at hcc
    by_cases hci : ci = i >>> 9
    · subst hci
      rw [Function.update_same] at hcc
      have hmask : i &&& 511 < 512 := by rw [and511_eq]; omega
      injection hcc with hcc
      subst hcc
      cases hoc : l.entity_chunk (i >>> 9) with
      | none =>
        simp only [hoc]
        have hcount := countSome_update (fun _ => (none : Option α)) hmask (some v)
        simp [countSome_none] at hcount
        constructor
        · simp [hcount]
        · simp
      | some c =>
        obtain ⟨hcnt, hnz⟩ := hinv _ _ hoc
        simp only [hoc]
        have hcount := countSome_update c.entities hmask (some v)
        cases hold : c.entities (i &&& 511) with
        | none =>
          simp only [hold, Option.isNone_none, if_pos, Option.isSome_none,
            Option.isSome_some, if_true, if_neg (by simp : ¬ False)] at hcount ⊢
          simp [hold] at hcount
          constructor
          · omega
          · omega
        | some w =>
          simp only [hold] at hcount ⊢
          simp at hcount ⊢
          constructor
          · omega
          · omega
    · rw [Function.update_noteq hci] at hcc
      exact hinv ci cc hcc

lemma inv_delete (l : EntityList α) (hinv : l.inv) (i : Nat) :
    ((l.delete i).2).inv := by
  unfold delete
  cases hc : l.chunk (i >>> 9) with
  | none => exact hinv
  | some c =>
    simp only []
    cases he : c.entities (i &&& 511) with
    | none => exact hinv
    | some e =>
      have hoob : ¬ 64 ≤ i >>> 9 := by
        intro hco; simp [chunk, hco] at hc
      have hc2 : l.entity_chunk (i >>> 9) = some c := by
        simpa [chunk, hoob] using hc
      have hmask : i &&& 511 < 512 := by rw [and511_eq]; omega
      obtain ⟨hcnt, hnz⟩ := hinv _ _ hc2
      have hcount := countSome_update c.entities hmask (none : Option α)
      rw [he] at hcount
      simp at hcount
      simp only []
      by_cases hz : c.counter - 1 = 0
      · rw [if_pos hz]
        intro ci cc hcc
        simp only [] at hcc
        by_cases hci : ci = i >>> 9
        · subst hci
          rw [Function.update_same] at hcc
          exact absurd hcc (by simp)
        · rw [Function.update_noteq hci] at hcc
          exact hinv ci cc hcc
      · rw [if_neg hz]
        intro ci cc hcc
        simp only [] at hcc
        by_cases hci : ci = i >>> 9
        · subst hci
          rw [Function.update_same] at hcc
          injection hcc with hcc
          subst hcc
          constructor
          · simp only []
            omega
          · simp only []
            omega
        · rw [Function.update_noteq hci] at hcc
          exact hinv ci cc hcc

end EntityList

/-! ### Operation sequences over the EntityList (C6) -/

/-- An insert or delete operation on the entity list; `get` operations do not
change the state and are covered by quantifying over all probe indices. -/
inductive EOp (α : Type) where
  | insert (idx : Nat) (v : α)
  | delete (idx : Nat)

def EOp.index : EOp α → Nat
  | .insert i _ => i
  | .delete i => i

/-- Single state-transition step of the entity list under one operation. -/
def EntityList.step (l : EntityList α) : EOp α → EntityList α
  | .insert i v => (l.insert i v).2
  | .delete i => (l.delete i).2

/-- Run a sequence of operations from the empty list. -/
def EntityList.run (ops : List (EOp α)) : EntityList α :=
  ops.foldl EntityList.step EntityList.new

/-- Last operation in `ops` whose index is `i`, if any (later operations take
precedence). -/
def lastAction : List (EOp α) → Nat → Option (EOp α)
  | [], _ => none
  | op :: rest, i =>
    match lastAction rest i with
    | some a => some a
    | none => if op.index = i then some op else none

/-- Modelled from the spec: the value at `i` is the last value inserted at `i`
and not since deleted, and nothing otherwise. -/
def specGet (ops : List (EOp α)) (i : Nat) : Option α :=
  match lastAction ops i with
  | some (.insert _ v) => some v
  | _ => none

lemma step_inv (l : EntityList α) (hinv : l.inv) (op : EOp α) :
    (l.step op).inv := by
  cases op with
  | insert i v => exact EntityList.inv_insert l hinv i v
  | delete i => exact EntityList.inv_delete l hinv i

lemma foldl_step_inv (ops : List (EOp α)) (l : EntityList α) (hinv : l.inv) :
    (ops.foldl EntityList.step l).inv := by
  induction ops generalizing l with
  | nil => exact hinv
  | cons op rest ih => exact ih (l.step op) (step_inv l hinv op)

lemma foldl_step_get (ops : List (EOp α)) (hops : ∀ op ∈ ops, op.index < 32768)
    (l : EntityList α) (hinv : l.inv) (i : Nat) :
    (ops.foldl EntityList.step l).get i =
      match lastAction ops i with
      | some (.insert _ v) => some v
      | some (.delete _) => none
      | none => l.get i := by
  induction ops generalizing l with
  | nil => rfl
  | cons op rest ih =>
    have hop : op.index < 32768 := hops op (by simp)
    have hrest : ∀ o ∈ rest, o.index < 32768 := fun o ho => hops o (by simp [ho])
    rw [List.foldl_cons, ih hrest (l.step op) (step_inv l hinv op)]
    show _ = (match (match lastAction rest i with
      | some a => some a
      | none => if op.index = i then some op else none) with
      | some (.insert _ v) => some v
      | some (.delete _) => none
      | none => l.get i)
    cases hla : lastAction rest i with
    | some a => cases a <;> rfl
    | none =>
      simp only []
      by_cases hopi : op.index = i
      · rw [if_pos hopi]
        cases op with
        | insert k v =>
          simp only [EOp.index] at hopi hop
          show (l.insert k v).2.get i = some v
          rw [EntityList.get_insert, if_pos ⟨hop, hopi.symm⟩]
        | delete k =>
          simp only [EOp.index] at hopi
          show (l.delete k).2.get i = none
          rw [EntityList.get_delete l hinv, if_pos hopi.symm]
      · rw [if_neg hopi]
        cases op with
        | insert k v =>
          simp only [EOp.index] at hopi
          show (l.insert k v).2.get i = l.get i
          rw [EntityList.get_insert,
            if_neg (show ¬ (k < 32768 ∧ i = k) from fun h => hopi h.2.symm)]
        | delete k =>
          simp only [EOp.index] at hopi
          show (l.delete k).2.get i = l.get i
          rw [EntityList.get_delete l hinv,
            if_neg (show ¬ i = k from fun h => hopi h.symm)]

/-- C6.  EntityList algebra and chunk invariant: after any interleaving of
insert/delete operations on indices below 32768, `get i` is the last value
inserted at `i` and not since deleted (and nothing otherwise), and the chunk
invariant holds: every allocated chunk's counter equals the number of
occupied slots, and a chunk whose counter reaches zero has been released. -/
theorem entity_list_algebra (ops : List (EOp α))
    (hops : ∀ op ∈ ops, op.index < 32768) :
    (∀ i, (EntityList.run ops).get i = specGet ops i) ∧
    (EntityList.run ops).inv := by
  constructor
  · intro i
    unfold EntityList.run specGet
    rw [foldl_step_get ops hops EntityList.new EntityList.inv_new i]
    cases lastAction ops i with
    | none => simp [EntityList.get_new]
    | some a => cases a <;> rfl
  · exact foldl_step_inv ops EntityList.new EntityList.inv_new

/-- Witness for C6 on a concrete operation sequence spanning two chunks. -/
theorem entity_list_algebra_witness :
    (∀ op ∈ ([.insert 5 10, .insert 600 20, .insert 5 11, .delete 5] :
        List (EOp Nat)), op.index < 32768) ∧
    ((∀ i, (EntityList.run [.insert 5 10, .insert 600 20, .insert 5 11,
          .delete 5]).get i =
        specGet [EOp.insert 5 10, .insert 600 20, .insert 5 11, .delete 5] i) ∧
      (EntityList.run [EOp.insert 5 10, .insert 600 20, .insert 5 11,
          .delete 5]).inv) :=
  ⟨by decide, entity_list_algebra _ (by decide)⟩

/-- C10.  Every index at or above 32768 (= 64·512) is rejected: `insert`
returns nothing and leaves the list unchanged, and `get`/`get_mut`/`delete`
return nothing (with `delete` also leaving the list unchanged).  All
operations of the model are total functions, reflecting that the source's
unchecked accesses are guarded by these bounds checks. -/
theorem entity_list_out_of_range (l : EntityList α) (idx : Nat) (e : α)
    (h : 32768 ≤ idx) :
    l.insert idx e = (none, l) ∧ l.get idx = none ∧ l.delete idx = (none, l) := by
  have hc : 64 ≤ idx >>> 9 := (chunkIdx_ge_iff idx).mpr h
  refine ⟨?_, ?_, ?_⟩
  · rw [EntityList.insert, if_pos hc]
  · rw [EntityList.get, EntityList.chunk, if_pos hc]
  · rw [EntityList.delete, EntityList.chunk, if_pos hc]

/-- Witness for C10 at a concrete out-of-range index. -/
theorem entity_list_out_of_range_witness :
    (32768 : Nat) ≤ 40000 ∧
    ((EntityList.new : EntityList Nat).insert 40000 5 = (none, EntityList.new) ∧
      (EntityList.new : EntityList Nat).get 40000 = none ∧
      (EntityList.new : EntityList Nat).delete 40000 = (none, EntityList.new)) :=
  ⟨by norm_num, entity_list_out_of_range EntityList.new 40000 5 (by norm_num)⟩

/-! ### Entity handles (C5) -/

lemma handle_decomp_idx {s i : Nat} (hi : i < 2 ^ 14) :
    ((s <<< 14) ||| i) &&& (2 ^ 14 - 1) = i := by
  have hadd : (s <<< 14) ||| i = s * 2 ^ 14 + i := by
    rw [Nat.shiftLeft_eq, Nat.lor_comm]
    have := lor_mul_pow (a := i) (x := s) (s := 14) hi
    omega
  rw [hadd, Nat.and_pow_two_sub_one_eq_mod]
  have h14 : (2 : Nat) ^ 14 = 16384 := by norm_num
  rw [h14] at hi ⊢
  omega

lemma handle_decomp_serial {s i : Nat} (hi : i < 2 ^ 14) :
    ((s <<< 14) ||| i) >>> 14 = s := by
  have hadd : (s <<< 14) ||| i = s * 2 ^ 14 + i := by
    rw [Nat.shiftLeft_eq, Nat.lor_comm]
    have := lor_mul_pow (a := i) (x := s) (s := 14) hi
    omega
  rw [hadd, Nat.shiftRight_eq_div_pow]
  omega

/-- C5.  Handle law: for a live entity at index `i < 2^14` with serial `s`,
`get_entity_by_handle ((s << 14) | i)` returns the same entity payload as
`get i`; and any handle whose 14-bit index holds an entity with a different
serial (a stale serial) returns nothing. -/
theorem handle_law (l : EntityList (EntityItem α)) :
    (∀ i e, l.get i = some e → i < 2 ^ 14 → e.serial < 2 ^ 32 →
      l.get_entity_by_handle ((e.serial <<< 14) ||| i) = some e.item ∧
      (l.get i).map EntityItem.item = some e.item) ∧
    (∀ handle e, l.get (handle &&& (2 ^ 14 - 1)) = some e →
      e.serial ≠ (handle >>> 14) % 2 ^ 32 →
      l.get_entity_by_handle handle = none) := by
  constructor
  · intro i e hget hi hs
    constructor
    · unfold EntityList.get_entity_by_handle
      rw [handle_decomp_idx hi, hget, handle_decomp_serial hi,
        Nat.mod_eq_of_lt hs]
      simp
    · rw [hget]; rfl
  · intro handle e hget hserial
    unfold EntityList.get_entity_by_handle
    rw [hget]
    have hs2 : e.serial ≠ handle >>> 14 % 4294967296 := by
      simpa using hserial
    simp [hs2]

/-- Witness for C5: a live entity at index 3 with serial 7, probed with its
own handle and with a stale handle. -/
theorem handle_law_witness :
    (((EntityList.new.insert 3 (⟨3, 7, 42⟩ : EntityItem Nat)).2).get 3 =
        some ⟨3, 7, 42⟩ ∧ (3 : Nat) < 2 ^ 14 ∧ (7 : Nat) < 2 ^ 32 ∧
      ((EntityList.new.insert 3 (⟨3, 7, 42⟩ : EntityItem Nat)).2).get
          ((((8 : Nat) <<< 14) ||| 3) &&& (2 ^ 14 - 1)) = some ⟨3, 7, 42⟩ ∧
      (7 : Nat) ≠ (((8 <<< 14) ||| 3) >>> 14) % 2 ^ 32) ∧
    ((EntityList.new.insert 3 (⟨3, 7, 42⟩ : EntityItem Nat)).2).get_entity_by_handle
        ((7 <<< 14) ||| 3) = some 42 ∧
    ((EntityList.new.insert 3 (⟨3, 7, 42⟩ : EntityItem Nat)).2).get_entity_by_handle
        ((8 <<< 14) ||| 3) = none := by
  refine ⟨by decide, ?_, ?_⟩
  · exact ((handle_law _).1 3 ⟨3, 7, 42⟩ (by decide) (by decide) (by decide)).1
  · exact (handle_law _).2 ((8 <<< 14) ||| 3) ⟨3, 7, 42⟩ (by decide) (by decide)

/-! ## Bit-level reader (src/src/bit.rs over `bitstream_io::LittleEndian`)

A bit stream is a `List Bool`; the head is the next bit read.  A fixed-width
read of `n` bits interprets the first bit read as the least significant
(little-endian), matching `BitReader<_, LittleEndian>::read_unsigned`.
`read_u8` has a byte-aligned fast path in the source that reads the same 8
bits, so a single bit-level model covers both paths; likewise the two
branches of `impl_read_varint` (byte-aligned and not) read identical bit
sequences (7 value bits then the continuation bit, which in a byte equal the
low 7 bits and the MSB). -/

/-- Value of a little-endian bit vector (head = least significant bit). -/
def bitsToNatLE (bs : List Bool) : Nat :=
  bs.foldr (fun b acc => (if b then 1 else 0) + 2 * acc) 0

def readBit : List Bool → Except Err (Bool × List Bool)
  | [] => .error eofErr
  | b :: rest => .ok (b, rest)

/-- Embedding of `read_unsigned::<n, _>` / `read_var(n)`: `n` bits,
little-endian. -/
def readUnsigned (n : Nat) (s : List Bool) : Except Err (Nat × List Bool) :=
  if s.length < n then .error eofErr
  else .ok (bitsToNatLE (s.take n), s.drop n)

/-- Embedding of `read_u8` (8 bits, identical in both source paths). -/
def readU8 (s : List Bool) : Except Err (Nat × List Bool) :=
  readUnsigned 8 s

/-- Embedding of `read_ubit_int` (src/src/bit.rs lines 84-93): 6 bits, then
bits 4..5 select an extension of 4, 8 or 28 further bits. -/
def read_ubit_int (s : List Bool) : Except Err (Nat × List Bool) := do
  let (ret, s) ← readUnsigned 6 s
  match ret &&& (16 ||| 32) with
  | 16 => do
    let (v, s) ← readUnsigned 4 s
    .ok ((ret &&& 15) ||| (v <<< 4), s)
  | 32 => do
    let (v, s) ← readU8 s
    .ok ((ret &&& 15) ||| (v <<< 4), s)
  | 48 => do
    let (v, s) ← readUnsigned 28 s
    .ok ((ret &&& 15) ||| (v <<< 4), s)
  | _ => .ok (ret, s)

/-- Embedding of `read_ubit_int_fp` (src/src/bit.rs lines 95-109): a chained
bit prefix selects a width of 2, 4, 10, 17 or 31 bits; the result is returned
as an `i32` (always non-negative, since at most 31 bits are read). -/
def read_ubit_int_fp (s : List Bool) : Except Err (Int × List Bool) := do
  let (b, s) ← readBit s
  if b then
    let (v, s) ← readUnsigned 2 s
    .ok ((v : Int), s)
  else do
    let (b, s) ← readBit s
    if b then
      let (v, s) ← readUnsigned 4 s
      .ok ((v : Int), s)
    else do
      let (b, s) ← readBit s
      if b then
        let (v, s) ← readUnsigned 10 s
        .ok ((v : Int), s)
      else do
        let (b, s) ← readBit s
        if b then
          let (v, s) ← readUnsigned 17 s
          .ok ((v : Int), s)
        else do
          let (v, s) ← readUnsigned 31 s
          .ok ((v : Int), s)

/-- Bit-level varint accumulator (the non-byte-aligned branch of
`impl_read_varint`): 7 value bits then a continuation bit per group; the
`value |= v << shift` truncates at `width` bits, and a shift amount of
`width` or more is a Rust shift-overflow panic, modelled as an error.  The
fuel argument only bounds the recursion; it is set from the stream length,
which each iteration strictly decreases in the source. -/
def readVarintBitsAux (width : Nat) : Nat → Nat → Nat → List Bool →
    Except Err (Nat × List Bool)
  | 0, _, _, _ => .error eofErr
  | fuel + 1, shift, acc, s => do
    let (v, s) ← readUnsigned 7 s
    let (flag, s) ← readBit s
    if width ≤ shift then .error "attempt to shift left with overflow"
    else
      let acc := acc ||| ((v <<< shift) % 2 ^ width)
      if flag then readVarintBitsAux width fuel (shift + 7) acc s
      else .ok (acc, s)

/-- Embedding of `read_varint_u64` on the bit-level reader. -/
def read_varint_u64_bits (s : List Bool) : Except Err (Nat × List Bool) :=
  readVarintBitsAux 64 (s.length + 1) 0 0 s

/-- Embedding of `read_varint_u32` on the bit-level reader. -/
def read_varint_u32_bits (s : List Bool) : Except Err (Nat × List Bool) :=
  readVarintBitsAux 32 (s.length + 1) 0 0 s

/-- Interpretation of a `u32` bit pattern as an `i32` (two's complement). -/
def i32OfU32 (n : Nat) : Int :=
  if n < 2 ^ 31 then (n : Int) else (n : Int) - 2 ^ 32

/-- Embedding of `read_varint_i32`: unsigned varint then the zig-zag fixup
`(v >> 1)` if even, `!(v >> 1)` (bitwise complement in `u32`) if odd. -/
def read_varint_i32_bits (s : List Bool) : Except Err (Int × List Bool) :=
  match read_varint_u32_bits s with
  | .error e => .error e
  | .ok (v, rest) =>
    if v % 2 = 1 then .ok (i32OfU32 (2 ^ 32 - 1 - v / 2), rest)
    else .ok (i32OfU32 (v / 2), rest)

/-- Embedding of `skip_varint` (src/src/entity/decoder.rs lines 344-352):
read bytes until one has the high bit clear.  Fuel from the stream length,
which each iteration strictly decreases. -/
def skip_varint : Nat → List Bool → Except Err (List Bool)
  | 0, _ => .error eofErr
  | fuel + 1, s => do
    let (byte, s) ← readU8 s
    if byte &&& 0x80 = 0 then .ok s
    else skip_varint fuel s

/-! ## VectorSerializer (src/src/entity/serializer.rs lines 288-343, C7)

`VectorSerializer<S, T>::decode_typed` mutates a `Vec<T>` in place through an
`Option<&mut Vec<T>>`.  The mutation is modelled functionally: the inner
serializer is a parameter given as a pair of functions, `inner` for the
`Some(&mut T)` case (returning the updated element) and `innerSkip` for the
`None` skip-decode case; `T::new()` is the `dflt` parameter. -/

/-- Semantics of `Vec::resize(size, d)`: truncate or extend with copies of
`d`. -/
def listResize (v : List α) (n : Nat) (d : α) : List α :=
  if n ≤ v.length then v.take n else v ++ List.replicate (n - v.length) d

/-- Embedding of `VectorSerializer::decode_typed`. -/
def vectorDecode
    (inner : α → List Nat → List Bool → Except Err (α × List Bool))
    (innerSkip : List Nat → List Bool → Except Err (List Bool))
    (dflt : α) (entity : Option (List α)) (path : List Nat) (s : List Bool) :
    Except Err (Option (List α) × List Bool) :=
  match path with
  | [] =>
    match entity with
    | some e => do
      let (size, s) ← read_varint_u64_bits s
      .ok (some (listResize e size dflt), s)
    | none => do
      let s ← skip_varint (s.length + 1) s
      .ok (none, s)
  | idx :: rest =>
    match entity with
    | some e =>
      if h : idx < e.length then do
        let (x, s) ← inner (e.get ⟨idx, h⟩) rest s
        .ok (some (e.set idx x), s)
      else .error "Invalid vector index"
    | none => do
      let s ← innerSkip rest s
      .ok (none, s)

/-- C7.  Vector decoder: with a present entity, an empty path reads a u64
varint and resizes the element vector to that length; a nonempty path whose
head index is at least the current length fails with the fatal decode error
"Invalid vector index"; and otherwise it dispatches into the element at the
head index (the updated element is written back in place). -/
theorem vector_decoder
    (inner : α → List Nat → List Bool → Except Err (α × List Bool))
    (innerSkip : List Nat → List Bool → Except Err (List Bool))
    (dflt : α) (v : List α) (idx : Nat) (rest : List Nat) (s : List Bool) :
    (∀ n s2, read_varint_u64_bits s = .ok (n, s2) →
      vectorDecode inner innerSkip dflt (some v) [] s =
        .ok (some (listResize v n dflt), s2)) ∧
    (v.length ≤ idx →
      vectorDecode inner innerSkip dflt (some v) (idx :: rest) s =
        .error "Invalid vector index") ∧
    (∀ h : idx < v.length,
      vectorDecode inner innerSkip dflt (some v) (idx :: rest) s =
        (inner (v.get ⟨idx, h⟩) rest s).bind
          (fun r => .ok (some (v.set idx r.1), r.2))) := by
  refine ⟨?_, ?_, ?_⟩
  · intro n s2 hread
    unfold vectorDecode
    rw [hread]
    rfl
  · intro hlen
    unfold vectorDecode
    dsimp only
    rw [dif_neg (by omega)]
  · intro h
    unfold vectorDecode
    dsimp only
    rw [dif_pos h]
    rfl

/-- Concrete inner serializer used by the C7 witness: read one bit and add it
to the `Nat` element. -/
def c7Inner (x : Nat) (_ : List Nat) (s : List Bool) : Except Err (Nat × List Bool) :=
  (readBit s).map (fun r => (x + (if r.1 then 1 else 0), r.2))

/-- Skip variant of `c7Inner` for the C7 witness. -/
def c7Skip (_ : List Nat) (s : List Bool) : Except Err (List Bool) :=
  (readBit s).map Prod.snd

/-- Witness for C7 with a concrete inner serializer: the three behaviors at
concrete inputs. -/
theorem vector_decoder_witness :
    vectorDecode c7Inner c7Skip 0 (some [7, 8])
        [] [true, false, false, false, false, false, false, false] =
      .ok (some [7], []) ∧
    vectorDecode c7Inner c7Skip 0 (some [7, 8]) [5] [true] =
      .error "Invalid vector index" ∧
    vectorDecode c7Inner c7Skip 0 (some [7, 8]) [1] [true] =
      .ok (some [7, 9], []) := by
  refine ⟨?_, ?_, ?_⟩
  · have h := (vector_decoder c7Inner c7Skip 0 [7, 8] 0 []
      [true, false, false, false, false, false, false, false]).1 1 [] (by rfl)
    rw [h]
    rfl
  · exact (vector_decoder c7Inner c7Skip 0 [7, 8] 5 [] [true]).2.1 (by decide)
  · have h := (vector_decoder c7Inner c7Skip 0 [7, 8] 1 [] [true]).2.2 (by decide)
    rw [h]
    rfl

/-! ## StringTable cache and the send-tables handler (src/src/string_table.rs,
src/src/entity.rs, C8)

`StringTable<P, T>` holds a replicated `map` and a `cache` of materialized
values; `purge_cache` clears the cache.  For the parser's instance-baseline
table, `T` is the materialized entity prototype, abstracted here as a type
parameter.  `handle_demo_send_tables` is modelled as far as the claim needs:
the early "already processed" rejection, the purge, the missing-data error,
and the remaining protobuf decode plus serializer build abstracted as a
`build` function that can only read the message (the source code after the
purge never touches `instance_baseline`, only `entity_serializers` and local
state).  Rust mutates `self` in place, so the model returns the state
alongside the `Result`, also on the error paths. -/

structure StringTable (τ : Type) where
  map : List (String × (Int × Option (List Nat)))
  cache : List (String × τ)

/-- Embedding of `StringTable::purge_cache`: `self.cache.clear()`. -/
def StringTable.purge_cache (t : StringTable τ) : StringTable τ :=
  { t with cache := [] }

/-- Parser state slice relevant to `handle_demo_send_tables`. -/
structure SendTablesState (τ : Type) where
  entity_serializers : List String
  instance_baseline : Option (StringTable τ)

/-- Embedding of `handle_demo_send_tables` (src/src/entity.rs lines 71-241):
reject when send tables were already processed; otherwise purge the
instance-baseline cache, fail when the message has no data, then decode and
build the serializers (abstracted by `build`, which cannot touch the
baseline) and install them. -/
def handle_demo_send_tables (st : SendTablesState τ) (msgData : Option μ)
    (build : μ → Except Err (List String)) :
    SendTablesState τ × Except Err Unit :=
  if st.entity_serializers ≠ [] then
    (st, .error "Demo send tables already processed")
  else
    let st := { st with
      instance_baseline := st.instance_baseline.map StringTable.purge_cache }
    match msgData with
    | none => (st, .error "Missing data in demo send tables")
    | some m =>
      match build m with
      | .error e => (st, .error e)
      | .ok serializers =>
        ({ st with entity_serializers := serializers }, .ok ())

/-- C8.  Instance-baseline purge: whenever a send-tables message is processed
(it passes the "already processed" check, i.e. no serializers are installed
yet), the resulting instance-baseline cache of materialized prototypes is
empty — purged before anything else happens, on the success path and on
every later error path alike. -/
theorem send_tables_purges_baseline_cache (st : SendTablesState τ)
    (msgData : Option μ) (build : μ → Except Err (List String))
    (hfresh : st.entity_serializers = []) :
    ∀ ib, (handle_demo_send_tables st msgData build).1.instance_baseline = some ib →
      ib.cache = [] := by
  have hkey : (handle_demo_send_tables st msgData build).1.instance_baseline
      = st.instance_baseline.map StringTable.purge_cache := by
    unfold handle_demo_send_tables
    rw [if_neg (by simp [hfresh])]
    cases msgData with
    | none => rfl
    | some m =>
      cases hb : build m with
      | error e => simp [hb]
      | ok serializers => simp [hb]
  intro ib hib
  rw [hkey] at hib
  cases ho : st.instance_baseline with
  | none =>
    rw [ho] at hib
    simp at hib
  | some t =>
    rw [ho] at hib
    have h2 : some t.purge_cache = some ib := hib
    have h3 := Option.some.inj h2
    rw [← h3]
    rfl

/-- Witness for C8 on a concrete state with a non-empty cache. -/
theorem send_tables_purges_baseline_cache_witness :
    (SendTablesState.mk [] (some ⟨[("5", (0, none))], [("5", 42)]⟩) :
        SendTablesState Nat).entity_serializers = [] ∧
    ∀ ib, (handle_demo_send_tables
        (SendTablesState.mk [] (some ⟨[("5", (0, none))], [("5", 42)]⟩))
        (some 0) (fun _ : Nat => .ok ["CWorld"])).1.instance_baseline = some ib →
      ib.cache = [] :=
  ⟨rfl, send_tables_purges_baseline_cache _ (some 0) (fun _ => .ok ["CWorld"]) rfl⟩

/-! ## register_entity_serializer after parsing has started (src/src/entity.rs
lines 37-48, src/src/lib.rs lines 180-186, C9)

`CsDemoParser::is_fresh` is `self.state.map_name.is_empty()`; the map name is
set by the file-header frame, the first frame of a demo.
`register_entity_serializer` logs a warning and returns without touching the
creator map when the parser is not fresh.  Creator function pointers are
modelled as opaque `Nat` identifiers; the `HashMap::insert` is an
association-list insert (its exact semantics are irrelevant to the claim,
which is about the not-fresh path).  The Rust function returns `()`, so no
error can be reported. -/

structure RegParserState where
  map_name : String
  entity_serializer_creators : List (String × Nat)

/-- Embedding of `CsDemoParser::is_fresh`. -/
def RegParserState.is_fresh (p : RegParserState) : Bool :=
  p.map_name.isEmpty

/-- Embedding of `register_entity_serializer`: a warning-only no-op when
parsing has started, an insert into the creator map otherwise. -/
def register_entity_serializer (p : RegParserState) (name : String)
    (creator : Nat) : RegParserState :=
  if ¬ p.is_fresh then p
  else { p with entity_serializer_creators :=
    (name, creator) :: p.entity_serializer_creators.filter (fun kv => kv.1 ≠ name) }

/-- C9.  Calling `register_entity_serializer` once parsing has started (the
file-header frame set a non-empty map name, so the parser is no longer
fresh) is a no-op apart from the logged warning: the whole parser state —
in particular the set of registered creators — is unchanged, and the
function's return type `()` admits no error. -/
theorem register_after_start_is_noop (p : RegParserState) (name : String)
    (creator : Nat) (h : p.is_fresh = false) :
    register_entity_serializer p name creator = p := by
  unfold register_entity_serializer
  rw [if_pos (by simp [h])]

/-- Witness for C9 on a parser that has read the file-header frame. -/
theorem register_after_start_is_noop_witness :
    (RegParserState.mk "de_dust2" [("CWorld", 1)]).is_fresh = false ∧
    register_entity_serializer (RegParserState.mk "de_dust2" [("CWorld", 1)])
        "CCSPlayerController" 2 = RegParserState.mk "de_dust2" [("CWorld", 1)] :=
  ⟨by decide, register_after_start_is_noop _ "CCSPlayerController" 2 (by decide)⟩

/-! ## Quantized float decoder (src/src/entity/decoder.rs lines 668-883, C2)

`f32`/`f64` arithmetic is modelled exactly, as unreduced fractions of
machine integers (`FVal`, denominators kept positive; Mathlib's `ℚ`
normalizes through `Nat.gcd`, which the kernel cannot evaluate).  For the C2
fixture `(bits = 8, flags = ROUNDDOWN, low = 0, high = 360)` every operation
on the branch-deciding path is exact in `f32` — `360/256 = 1.40625` and
`360 - 1.40625 = 358.59375` are exactly representable, and
`quantize(low) = low + (high-low)·((0·mul)·dec_mul) = low` holds exactly for
any finite multiplier — so the model and the `f32` code take the same
branches there.  The only place where `f32` rounding could diverge from the
exact model is the fallback-multiplier test inside `assign_multipliers`,
which affects only the numeric value of `high_low_mul`; the C2 theorems do
not depend on it.  The `value as u32` cast saturates like Rust's
float-to-int cast. -/

/-- Exact-rational model of an `f32` value: an unreduced fraction with a
positive denominator.  Comparisons and equality are by cross-multiplication,
so two `FVal`s denote the same number exactly when the source's `f32`
comparison of the (exactly computed) values would succeed. -/
structure FVal where
  num : Int
  den : Int
deriving DecidableEq

namespace FVal

def ofInt (n : Int) : FVal := ⟨n, 1⟩

def add (a b : FVal) : FVal := ⟨a.num * b.den + b.num * a.den, a.den * b.den⟩

def sub (a b : FVal) : FVal := ⟨a.num * b.den - b.num * a.den, a.den * b.den⟩

def mul (a b : FVal) : FVal := ⟨a.num * b.num, a.den * b.den⟩

/-- Division, keeping the denominator positive.  Division by an exact zero
produces a denominator 0 (the `f32` code would produce an infinity); no
claim path divides by zero. -/
def div (a b : FVal) : FVal :=
  if b.num < 0 then ⟨-(a.num * b.den), a.den * (-b.num)⟩
  else ⟨a.num * b.den, a.den * b.num⟩

def blt (a b : FVal) : Bool := a.num * b.den < b.num * a.den

def ble (a b : FVal) : Bool := a.num * b.den ≤ b.num * a.den

def beq (a b : FVal) : Bool := a.num * b.den = b.num * a.den

def abs (a : FVal) : FVal := ⟨|a.num|, |a.den|⟩

end FVal

def QFF_ROUNDDOWN : Nat := 1
def QFF_ROUNDUP : Nat := 2
def QFF_ENCODE_ZERO : Nat := 4
def QFF_ENCODE_INTEGERS : Nat := 8

/-- Semantics of `flags &= !m` on a `u32` flag word. -/
def andNot (f m : Nat) : Nat := f &&& (2 ^ 32 - 1 - m)

/-- Semantics of Rust's saturating `f32 as u32` cast for finite values
(truncation toward zero; negative values clamp to 0, large values to
`u32::MAX`). -/
def fvalToU32 (q : FVal) : Nat :=
  if q.num < 0 then 0 else min (2 ^ 32 - 1) ((q.num / q.den).toNat)

/-- Model of `delta.log2().ceil() as u32` for positive `delta` (only reached
on the `ENCODE_INTEGERS` path, which no claim exercises). -/
def fvalCeilLog2 (q : FVal) : Nat :=
  Nat.clog 2 ((q.num + q.den - 1) / q.den).toNat

/-- Model of the `while (1u32 << bc) <= range2 { bc += 1 }` widening loop;
fuel 64 exceeds any reachable iteration count. -/
def widenBits (range2 : Nat) : Nat → Nat → Nat
  | 0, bc => bc
  | fuel + 1, bc => if 2 ^ bc ≤ range2 then widenBits range2 fuel (bc + 1) else bc

structure F32SerializerQuantized where
  low : FVal
  high : FVal
  high_low_mul : FVal
  dec_mul : FVal
  bits : Nat
  rounddown : Bool
  roundup : Bool
  encode_zero : Bool
deriving DecidableEq

namespace F32SerializerQuantized

/-- Fallback multiplier scan of `assign_multipliers`: try each multiplier in
turn, keeping the last one computed (the loop's `continue`/`break`
structure). -/
def pickMult (range : FVal) (high : FVal) : List FVal → FVal → FVal
  | [], cur => cur
  | m :: rest, _ =>
    let hm := (high.div range).mul m
    if (high.blt (hm.mul range)) then pickMult range high rest hm else hm

/-- Embedding of `assign_multipliers` (src/src/entity/decoder.rs lines
789-828).  The `f32` and `f64` overflow tests coincide in the exact model,
so the `||`-ed pair of tests is a single test here. -/
def assign_multipliers (s : F32SerializerQuantized) (steps : Nat) :
    Except Err F32SerializerQuantized := do
  let range := s.high.sub s.low
  let high : Nat := if s.bits = 32 then 0xFFFFFFFE else 2 ^ s.bits - 1
  let highF : FVal := .ofInt high
  let high_mul : FVal := if range.abs.ble (.ofInt 0) then highF else highF.div range
  let high_mul :=
    if highF.blt (high_mul.mul range) then
      pickMult range highF
        [⟨9999, 10000⟩, ⟨99, 100⟩, ⟨9, 10⟩, ⟨8, 10⟩, ⟨7, 10⟩] high_mul
    else high_mul
  let s := { s with high_low_mul := high_mul,
                    dec_mul := FVal.div (.ofInt 1) (.ofInt ((steps : Int) - 1)) }
  if s.high_low_mul.beq (.ofInt 0) then .error "Error computing high / low multiplier"
  else .ok s

/-- Embedding of `quantize` (src/src/entity/decoder.rs lines 830-851). -/
def quantize (s : F32SerializerQuantized) (value : FVal) : Except Err FVal :=
  if value.blt s.low then
    if ¬ s.roundup then .error "Field tried to quantize an out of range value"
    else .ok s.low
  else if s.high.blt value then
    if ¬ s.rounddown then .error "Field tried to quantize an out of range value"
    else .ok s.high
  else
    let i := fvalToU32 ((value.sub s.low).mul s.high_low_mul)
    .ok (s.low.add ((s.high.sub s.low).mul ((FVal.ofInt i).mul s.dec_mul)))

/-- Embedding of `F32SerializerQuantized::new` (src/src/entity/decoder.rs
lines 684-787): flag normalization, round-down/round-up range offsets, the
integer-widening path, multiplier assignment, and the final sentinel
elision (each round/zero flag is dropped when the corresponding value is
already exactly representable).  `1u32 << bits` with `bits ≥ 32` is a Rust
shift-overflow panic, modelled as an error. -/
def new (bits0 flags0 : Nat) (low0 high0 : FVal) :
    Except Err F32SerializerQuantized := do
  let flags ←
    if flags0 ≠ 0 then do
      let f := flags0
      let f := if (low0.beq (.ofInt 0) ∧ f &&& QFF_ROUNDDOWN ≠ 0) ∨
                  (high0.beq (.ofInt 0) ∧ f &&& QFF_ROUNDUP ≠ 0)
        then andNot f QFF_ENCODE_ZERO else f
      let f := if low0.beq (.ofInt 0) ∧ f &&& QFF_ENCODE_ZERO ≠ 0
        then andNot (f ||| QFF_ROUNDDOWN) QFF_ENCODE_ZERO else f
      let f := if high0.beq (.ofInt 0) ∧ f &&& QFF_ENCODE_ZERO ≠ 0
        then andNot (f ||| QFF_ROUNDUP) QFF_ENCODE_ZERO else f
      let f := if (FVal.ofInt 0).blt low0 ∨ high0.blt (.ofInt 0)
        then andNot f QFF_ENCODE_ZERO else f
      let f := if f &&& QFF_ENCODE_INTEGERS ≠ 0
        then andNot f (QFF_ROUNDUP ||| QFF_ROUNDDOWN ||| QFF_ENCODE_ZERO) else f
      if f &&& (QFF_ROUNDDOWN ||| QFF_ROUNDUP) = (QFF_ROUNDDOWN ||| QFF_ROUNDUP)
        then .error "Roundup / Rounddown are mutually exclusive"
        else .ok f
    else .ok flags0
  if 32 ≤ bits0 then .error "attempt to shift left with overflow"
  else do
    let bits := bits0
    let steps : Nat := 2 ^ bits
    let low := if flags &&& QFF_ROUNDDOWN ≠ 0 then low0 else
      if flags &&& QFF_ROUNDUP ≠ 0 then
        low0.add ((high0.sub low0).div (.ofInt steps)) else low0
    let high := if flags &&& QFF_ROUNDDOWN ≠ 0 then
        high0.sub ((high0.sub low0).div (.ofInt steps))
      else high0
    let (bits, steps, low, high) ←
      (if flags &&& QFF_ENCODE_INTEGERS ≠ 0 then do
        let delta := if (high.sub low).blt (.ofInt 1) then FVal.ofInt 1
          else high.sub low
        let range2 : Nat := 2 ^ fvalCeilLog2 delta
        let bc := widenBits range2 64 bits
        let bits := if bc > bits then bc else bits
        if 32 ≤ bits then .error "attempt to shift left with overflow"
        else do
          let steps : Nat := 2 ^ bits
          let offset := (FVal.ofInt range2).div (.ofInt steps)
          .ok (bits, steps, low, (low.add (.ofInt range2)).sub offset)
      else .ok (bits, steps, low, high) :
        Except Err (Nat × Nat × FVal × FVal))
    let s : F32SerializerQuantized :=
      { low := low, high := high, high_low_mul := .ofInt 0, dec_mul := .ofInt 0,
        bits := bits,
        rounddown := flags &&& QFF_ROUNDDOWN ≠ 0,
        roundup := flags &&& QFF_ROUNDUP ≠ 0,
        encode_zero := flags &&& QFF_ENCODE_ZERO ≠ 0 }
    let s ← s.assign_multipliers steps
    let qlow ← s.quantize s.low
    let s := if s.rounddown ∧ qlow.beq s.low then { s with rounddown := false } else s
    let qhigh ← s.quantize s.high
    let s := if s.roundup ∧ qhigh.beq s.high then { s with roundup := false } else s
    let qzero ← s.quantize (.ofInt 0)
    let s := if s.encode_zero ∧ qzero.beq (.ofInt 0) then { s with encode_zero := false }
      else s
    .ok s

/-- Raw-bit stage of `decode_typed`: read `bits` bits and rescale. -/
def decodeRaw (s : F32SerializerQuantized) (bs : List Bool) :
    Except Err (FVal × List Bool) := do
  let (v, bs) ← readUnsigned s.bits bs
  .ok (s.low.add (((s.high.sub s.low).mul (.ofInt v)).mul s.dec_mul), bs)

/-- Encode-zero stage of `decode_typed`'s sentinel chain. -/
def decodeFromZero (s : F32SerializerQuantized) (bs : List Bool) :
    Except Err (FVal × List Bool) :=
  if s.encode_zero then do
    let (b, bs) ← readBit bs
    if b then .ok (.ofInt 0, bs) else s.decodeRaw bs
  else s.decodeRaw bs

/-- Round-up stage of `decode_typed`'s sentinel chain. -/
def decodeFromUp (s : F32SerializerQuantized) (bs : List Bool) :
    Except Err (FVal × List Bool) :=
  if s.roundup then do
    let (b, bs) ← readBit bs
    if b then .ok (s.high, bs) else s.decodeFromZero bs
  else s.decodeFromZero bs

/-- Embedding of `decode_typed` (src/src/entity/decoder.rs lines 854-883) for
a present entity (the `None` skip branch reads the same bit sequence): each
set sentinel flag reads one gating bit in the order round-down, round-up,
encode-zero; otherwise `bits` raw bits are read and rescaled. -/
def decode_typed (s : F32SerializerQuantized) (bs : List Bool) :
    Except Err (FVal × List Bool) :=
  if s.rounddown then do
    let (b, bs) ← readBit bs
    if b then .ok (s.low, bs) else s.decodeFromUp bs
  else s.decodeFromUp bs

end F32SerializerQuantized

/-- Error projection of an `Except` result (there is no `DecidableEq` for
`Except`, so concrete runs are compared through `Option` projections). -/
def errOf : Except Err β → Option Err
  | .error e => some e
  | .ok _ => none

/-- C2 counterexample: with `bits = 8, flags = ROUNDDOWN, low = 0, high =
360`, decoding the single-bit payload `1` does not return `0.0` (it does not
return any value at all) — the constructor clears the round-down flag, so
the decoder reads 8 raw bits and fails at end of stream. -/
theorem quantized_fixture_counterexample :
    ((F32SerializerQuantized.new 8 1 (.ofInt 0) (.ofInt 360)).bind
        (fun s => s.decode_typed [true])).toOption.map
        (fun r => r.1.beq (.ofInt 0)) ≠ some true := by
  decide

/-- C2 amended: construction from `(8, ROUNDDOWN, 0, 360)` elides all three
sentinel flags (in particular round-down, since `quantize(low) = low`
exactly), keeps `bits = 8` and `low = 0`, and decoding the single-bit
payload `1` therefore attempts to read 8 raw bits and fails with the
end-of-stream error instead of returning `low`. -/
theorem quantized_fixture :
    (F32SerializerQuantized.new 8 1 (.ofInt 0) (.ofInt 360)).toOption.map
        (fun s => (s.rounddown, s.roundup, s.encode_zero, s.bits,
          s.low.beq (.ofInt 0))) =
      some (false, false, false, 8, true) ∧
    errOf ((F32SerializerQuantized.new 8 1 (.ofInt 0) (.ofInt 360)).bind
      (fun s => s.decode_typed [true])) = some eofErr := by
  constructor
  · decide
  · decide

/-! ## Field-path engine (src/src/entity/fieldpath.rs, C1 and C3)

`FieldPath` is `{ path: [i32; 7], last: u8, is_done: bool }`.  The `i32`
entries are modelled as `Int` reduced into `[-2^31, 2^31)` at every store:
the release profile (overflow-checks off, the crate sets no profile) wraps
`i32` addition two's-complement, and every value the opcodes store or add is
built from stored entries, in-range reads and constants using `+`/`-` only,
operations that commute with reduction mod `2^32` — so wrapping once at the
store point equals wrapping each intermediate `i32` operation as the
machine does.  The array is a total function with every read and write
guarded by the `< 7` bound, an out-of-bounds access being a Rust panic,
modelled as an error.  Ops receive the bit stream and the path and return
both updated, mirroring `FieldPathOpFn`. -/

/-- Two's-complement reduction of an `i32` result into `[-2^31, 2^31)`. -/
def wrapI32 (x : Int) : Int := (x + 2 ^ 31) % 2 ^ 32 - 2 ^ 31

structure FieldPath where
  path : Nat → Int
  last : Nat
  is_done : Bool

def DEFAULT_FIELD_PATH : FieldPath :=
  { path := fun i => if i = 0 then -1 else 0, last := 0, is_done := false }

namespace FieldPath

/-- Guarded read of `path[i]` (panic modelled as error). -/
def getAt (p : FieldPath) (i : Nat) : Except Err Int :=
  if i < 7 then .ok (p.path i) else .error "index out of bounds"

/-- Guarded write of `path[i] = v`: the stored value is the `i32` the
machine stores, `v` reduced two's-complement. -/
def setAt (p : FieldPath) (i : Nat) (v : Int) : Except Err FieldPath :=
  if i < 7 then .ok { p with path := Function.update p.path i (wrapI32 v) }
  else .error "index out of bounds"

/-- Semantics of `path.path[i] += v`. -/
def addAt (p : FieldPath) (i : Nat) (v : Int) : Except Err FieldPath := do
  let x ← p.getAt i
  p.setAt i (x + v)

/-- Zeroing loop of `pop`: `for i in (new_last+1)..=last { path[i] = 0 }`. -/
def zeroFrom (p : FieldPath) : List Nat → Except Err FieldPath
  | [] => .ok p
  | i :: rest => do
    let p ← p.setAt i 0
    p.zeroFrom rest

/-- Embedding of `FieldPath::pop` (src/src/entity/fieldpath.rs lines 37-45):
the quantity is truncated to `u8` (`qty as u8`, i.e. `qty % 256`), then
`last` decreases by it saturating at 0; the vacated slots are zeroed. -/
def pop (p : FieldPath) (qty : Nat) : Except Err FieldPath := do
  let newLast := p.last - qty % 256
  let p ← p.zeroFrom (List.range' (newLast + 1) (p.last - newLast))
  .ok { p with last := newLast }

/-- Semantics of `path.last += 1; path.path[path.last()] = v` (the reads that
produce `v` happen before the increment in the model and between the
increment and the write in the source; no bits are consumed in between, so
the observable behavior is identical). -/
def pushBack (p : FieldPath) (v : Int) : Except Err FieldPath :=
  let p := { p with last := p.last + 1 }
  p.setAt p.last v

/-- Embedding of `FieldPathFixed::to_slice`: the first `last + 1` entries. -/
def toSlice (p : FieldPath) : List Int := (List.range (p.last + 1)).map p.path

end FieldPath

abbrev FieldPathOp := List Bool → FieldPath → Except Err (FieldPath × List Bool)

/-- Packed fixed-width read used by several opcodes
(`read_unsigned::<N, u32>()? as i32`). -/
def readPacked (n : Nat) (s : List Bool) : Except Err (Int × List Bool) := do
  let (v, s) ← readUnsigned n s
  .ok ((v : Int), s)

/-- Push loop of `PushN` / `PushNAndNonTopological`: `n` times
`last += 1; path[last] = rd()`. -/
def pushLoop (rd : List Bool → Except Err (Int × List Bool)) :
    Nat → List Bool → FieldPath → Except Err (FieldPath × List Bool)
  | 0, s, p => .ok (p, s)
  | n + 1, s, p => do
    let (v, s) ← rd s
    let p ← p.pushBack v
    pushLoop rd n s p

/-- Non-topological update loop: `for i in 0..=last { if read_bit() {
path[i] += rd() } }`, over the explicit index list. -/
def nonTopoLoop (rd : List Bool → Except Err (Int × List Bool)) :
    List Nat → List Bool → FieldPath → Except Err (FieldPath × List Bool)
  | [], s, p => .ok (p, s)
  | i :: rest, s, p => do
    let (b, s) ← readBit s
    if b then do
      let (v, s) ← rd s
      let p ← p.addAt i v
      nonTopoLoop rd rest s p
    else nonTopoLoop rd rest s p

/-! The 40 field-path opcodes, in the order of `FIELD_PATH_OPS`
(src/src/entity/fieldpath.rs lines 94-370).  `read_ubit_int()? as i32` can
wrap for 32-bit values, modelled by `i32OfU32`; `read_ubit_int_fp` reads at
most 31 bits, so its `i32` value is the plain natural value. -/

def opPlusOne : FieldPathOp := fun s p => do
  let p ← p.addAt p.last 1
  .ok (p, s)

def opPlusTwo : FieldPathOp := fun s p => do
  let p ← p.addAt p.last 2
  .ok (p, s)

def opPlusThree : FieldPathOp := fun s p => do
  let p ← p.addAt p.last 3
  .ok (p, s)

def opPlusFour : FieldPathOp := fun s p => do
  let p ← p.addAt p.last 4
  .ok (p, s)

def opPlusN : FieldPathOp := fun s p => do
  let (v, s) ← read_ubit_int_fp s
  let p ← p.addAt p.last (v + 5)
  .ok (p, s)

def opPushOneLeftDeltaZeroRightZero : FieldPathOp := fun s p => do
  let p ← p.pushBack 0
  .ok (p, s)

def opPushOneLeftDeltaZeroRightNonZero : FieldPathOp := fun s p => do
  let (v, s) ← read_ubit_int_fp s
  let p ← p.pushBack v
  .ok (p, s)

def opPushOneLeftDeltaOneRightZero : FieldPathOp := fun s p => do
  let p ← p.addAt p.last 1
  let p ← p.pushBack 0
  .ok (p, s)

def opPushOneLeftDeltaOneRightNonZero : FieldPathOp := fun s p => do
  let p ← p.addAt p.last 1
  let (v, s) ← read_ubit_int_fp s
  let p ← p.pushBack v
  .ok (p, s)

def opPushOneLeftDeltaNRightZero : FieldPathOp := fun s p => do
  let (v, s) ← read_ubit_int_fp s
  let p ← p.addAt p.last v
  let p ← p.pushBack 0
  .ok (p, s)

def opPushOneLeftDeltaNRightNonZero : FieldPathOp := fun s p => do
  let (v, s) ← read_ubit_int_fp s
  let p ← p.addAt p.last (v + 2)
  let (w, s) ← read_ubit_int_fp s
  let p ← p.pushBack (w + 1)
  .ok (p, s)

def opPushOneLeftDeltaNRightNonZeroPack6Bits : FieldPathOp := fun s p => do
  let (v, s) ← readPacked 3 s
  let p ← p.addAt p.last (v + 2)
  let (w, s) ← readPacked 3 s
  let p ← p.pushBack (w + 1)
  .ok (p, s)

def opPushOneLeftDeltaNRightNonZeroPack8Bits : FieldPathOp := fun s p => do
  let (v, s) ← readPacked 4 s
  let p ← p.addAt p.last (v + 2)
  let (w, s) ← readPacked 4 s
  let p ← p.pushBack (w + 1)
  .ok (p, s)

def opPushTwoLeftDeltaZero : FieldPathOp := fun s p => do
  let (v, s) ← read_ubit_int_fp s
  let p ← p.pushBack v
  let (w, s) ← read_ubit_int_fp s
  let p ← p.pushBack w
  .ok (p, s)

def opPushTwoPack5LeftDeltaZero : FieldPathOp := fun s p => do
  let (v, s) ← readPacked 5 s
  let p ← p.pushBack v
  let (w, s) ← readPacked 5 s
  let p ← p.pushBack w
  .ok (p, s)

def opPushThreeLeftDeltaZero : FieldPathOp := fun s p => do
  let (v, s) ← read_ubit_int_fp s
  let p ← p.pushBack v
  let (w, s) ← read_ubit_int_fp s
  let p ← p.pushBack w
  let (x, s) ← read_ubit_int_fp s
  let p ← p.pushBack x
  .ok (p, s)

def opPushThreePack5LeftDeltaZero : FieldPathOp := fun s p => do
  let (v, s) ← readPacked 5 s
  let p ← p.pushBack v
  let (w, s) ← readPacked 5 s
  let p ← p.pushBack w
  let (x, s) ← readPacked 5 s
  let p ← p.pushBack x
  .ok (p, s)

def opPushTwoLeftDeltaOne : FieldPathOp := fun s p => do
  let p ← p.addAt p.last 1
  let (v, s) ← read_ubit_int_fp s
  let p ← p.pushBack v
  let (w, s) ← read_ubit_int_fp s
  let p ← p.pushBack w
  .ok (p, s)

def opPushTwoPack5LeftDeltaOne : FieldPathOp := fun s p => do
  let p ← p.addAt p.last 1
  let (v, s) ← readPacked 5 s
  let p ← p.pushBack v
  let (w, s) ← readPacked 5 s
  let p ← p.pushBack w
  .ok (p, s)

def opPushThreeLeftDeltaOne : FieldPathOp := fun s p => do
  let p ← p.addAt p.last 1
  let (v, s) ← read_ubit_int_fp s
  let p ← p.pushBack v
  let (w, s) ← read_ubit_int_fp s
  let p ← p.pushBack w
  let (x, s) ← read_ubit_int_fp s
  let p ← p.pushBack x
  .ok (p, s)

def opPushThreePack5LeftDeltaOne : FieldPathOp := fun s p => do
  let p ← p.addAt p.last 1
  let (v, s) ← readPacked 5 s
  let p ← p.pushBack v
  let (w, s) ← readPacked 5 s
  let p ← p.pushBack w
  let (x, s) ← readPacked 5 s
  let p ← p.pushBack x
  .ok (p, s)

def opPushTwoLeftDeltaN : FieldPathOp := fun s p => do
  let (n, s) ← read_ubit_int s
  let p ← p.addAt p.last (i32OfU32 n + 2)
  let (v, s) ← read_ubit_int_fp s
  let p ← p.pushBack v
  let (w, s) ← read_ubit_int_fp s
  let p ← p.pushBack w
  .ok (p, s)

def opPushTwoPack5LeftDeltaN : FieldPathOp := fun s p => do
  let (n, s) ← read_ubit_int s
  let p ← p.addAt p.last (i32OfU32 n + 2)
  let (v, s) ← readPacked 5 s
  let p ← p.pushBack v
  let (w, s) ← readPacked 5 s
  let p ← p.pushBack w
  .ok (p, s)

def opPushThreeLeftDeltaN : FieldPathOp := fun s p => do
  let (n, s) ← read_ubit_int s
  let p ← p.addAt p.last (i32OfU32 n + 2)
  let (v, s) ← read_ubit_int_fp s
  let p ← p.pushBack v
  let (w, s) ← read_ubit_int_fp s
  let p ← p.pushBack w
  let (x, s) ← read_ubit_int_fp s
  let p ← p.pushBack x
  .ok (p, s)

def opPushThreePack5LeftDeltaN : FieldPathOp := fun s p => do
  let (n, s) ← read_ubit_int s
  let p ← p.addAt p.last (i32OfU32 n + 2)
  let (v, s) ← readPacked 5 s
  let p ← p.pushBack v
  let (w, s) ← readPacked 5 s
  let p ← p.pushBack w
  let (x, s) ← readPacked 5 s
  let p ← p.pushBack x
  .ok (p, s)

def opPushN : FieldPathOp := fun s p => do
  let (n, s) ← read_ubit_int s
  let (d, s) ← read_ubit_int s
  let p ← p.addAt p.last (i32OfU32 d)
  pushLoop read_ubit_int_fp n s p

def opPushNAndNonTopological : FieldPathOp := fun s p => do
  let (p, s) ← nonTopoLoop
    (fun s => do
      let (v, s) ← read_varint_i32_bits s
      .ok (v + 1, s))
    (List.range (p.last + 1)) s p
  let (count, s) ← read_ubit_int s
  pushLoop read_ubit_int_fp count s p

def opPopOnePlusOne : FieldPathOp := fun s p => do
  let p ← p.pop 1
  let p ← p.addAt p.last 1
  .ok (p, s)

def opPopOnePlusN : FieldPathOp := fun s p => do
  let p ← p.pop 1
  let (v, s) ← read_ubit_int_fp s
  let p ← p.addAt p.last (v + 1)
  .ok (p, s)

def opPopAllButOnePlusOne : FieldPathOp := fun s p => do
  let p ← p.pop p.last
  let p ← p.addAt 0 1
  .ok (p, s)

def opPopAllButOnePlusN : FieldPathOp := fun s p => do
  let p ← p.pop p.last
  let (v, s) ← read_ubit_int_fp s
  let p ← p.addAt 0 (v + 1)
  .ok (p, s)

def opPopAllButOnePlusNPack3Bits : FieldPathOp := fun s p => do
  let p ← p.pop p.last
  let (v, s) ← readPacked 3 s
  let p ← p.addAt 0 (v + 1)
  .ok (p, s)

def opPopAllButOnePlusNPack6Bits : FieldPathOp := fun s p => do
  let p ← p.pop p.last
  let (v, s) ← readPacked 6 s
  let p ← p.addAt 0 (v + 1)
  .ok (p, s)

def opPopNPlusOne : FieldPathOp := fun s p => do
  let (v, s) ← read_ubit_int_fp s
  let p ← p.pop v.toNat
  let p ← p.addAt p.last 1
  .ok (p, s)

def opPopNPlusN : FieldPathOp := fun s p => do
  let (v, s) ← read_ubit_int_fp s
  let p ← p.pop v.toNat
  let (w, s) ← read_varint_i32_bits s
  let p ← p.addAt p.last w
  .ok (p, s)

def opPopNAndNonTopographical : FieldPathOp := fun s p => do
  let (v, s) ← read_ubit_int_fp s
  let p ← p.pop v.toNat
  nonTopoLoop read_varint_i32_bits (List.range (p.last + 1)) s p

def opNonTopoComplex : FieldPathOp := fun s p =>
  nonTopoLoop read_varint_i32_bits (List.range (p.last + 1)) s p

def opNonTopoPenultimatePlusOne : FieldPathOp := fun s p => do
  let p ← if p.last > 0 then p.addAt (p.last - 1) 1 else .ok p
  .ok (p, s)

def opNonTopoComplexPack4Bits : FieldPathOp := fun s p =>
  nonTopoLoop
    (fun s => do
      let (v, s) ← readPacked 4 s
      .ok (v - 7, s))
    (List.range (p.last + 1)) s p

def opFieldPathEncodeFinish : FieldPathOp := fun s p =>
  .ok ({ p with is_done := true }, s)

/-- The `FIELD_PATH_OPS` table: `(weight, op)` per opcode, in source order. -/
def FIELD_PATH_OPS : List (Nat × FieldPathOp) := [
  (36271, opPlusOne),
  (10334, opPlusTwo),
  (1375, opPlusThree),
  (646, opPlusFour),
  (4128, opPlusN),
  (35, opPushOneLeftDeltaZeroRightZero),
  (3, opPushOneLeftDeltaZeroRightNonZero),
  (521, opPushOneLeftDeltaOneRightZero),
  (2942, opPushOneLeftDeltaOneRightNonZero),
  (560, opPushOneLeftDeltaNRightZero),
  (471, opPushOneLeftDeltaNRightNonZero),
  (10530, opPushOneLeftDeltaNRightNonZeroPack6Bits),
  (251, opPushOneLeftDeltaNRightNonZeroPack8Bits),
  (0, opPushTwoLeftDeltaZero),
  (0, opPushTwoPack5LeftDeltaZero),
  (0, opPushThreeLeftDeltaZero),
  (0, opPushThreePack5LeftDeltaZero),
  (0, opPushTwoLeftDeltaOne),
  (0, opPushTwoPack5LeftDeltaOne),
  (0, opPushThreeLeftDeltaOne),
  (0, opPushThreePack5LeftDeltaOne),
  (0, opPushTwoLeftDeltaN),
  (0, opPushTwoPack5LeftDeltaN),
  (0, opPushThreeLeftDeltaN),
  (0, opPushThreePack5LeftDeltaN),
  (0, opPushN),
  (310, opPushNAndNonTopological),
  (2, opPopOnePlusOne),
  (0, opPopOnePlusN),
  (1837, opPopAllButOnePlusOne),
  (149, opPopAllButOnePlusN),
  (300, opPopAllButOnePlusNPack3Bits),
  (634, opPopAllButOnePlusNPack6Bits),
  (0, opPopNPlusOne),
  (0, opPopNPlusN),
  (1, opPopNAndNonTopographical),
  (76, opNonTopoComplex),
  (271, opNonTopoPenultimatePlusOne),
  (99, opNonTopoComplexPack4Bits),
  (25474, opFieldPathEncodeFinish)]

/-! ### Huffman tree over the 40 opcodes

`HuffmanNode` carries `weight`, `value`, an optional opcode (leaves) and
optional children (internal nodes); the two shapes are the two constructors.
`BinaryHeap::pop` returns the greatest element of the `Ord` in
src/src/entity/fieldpath.rs lines 388-402: smaller weight is greater, ties
broken by larger `value`.  All `value`s are distinct (leaves carry 0..39,
internal nodes 40..), so the order is total and `pop` is deterministic; the
heap is therefore modelled as a list with a select-maximum `popMax`. -/

inductive HuffmanNode where
  | leaf (weight : Nat) (value : Nat) (op : Nat)
  | node (weight : Nat) (value : Nat) (left right : HuffmanNode)

def HuffmanNode.weight : HuffmanNode → Nat
  | .leaf w _ _ => w
  | .node w _ _ _ => w

def HuffmanNode.value : HuffmanNode → Nat
  | .leaf _ v _ => v
  | .node _ v _ _ => v

/-- Strict "greater" of the source's `Ord for HuffmanNode`: the element
`BinaryHeap::pop` prefers. -/
def HuffmanNode.hGreater (a b : HuffmanNode) : Bool :=
  if a.weight = b.weight then b.value < a.value else a.weight < b.weight

/-- Children accessors: a leaf has none (`left`/`right` are `None` in the
source). -/
def HuffmanNode.leftChild : HuffmanNode → Option HuffmanNode
  | .leaf _ _ _ => none
  | .node _ _ l _ => some l

def HuffmanNode.rightChild : HuffmanNode → Option HuffmanNode
  | .leaf _ _ _ => none
  | .node _ _ _ r => some r

/-- Model of `BinaryHeap::pop`: remove the greatest element. -/
def popMax : List HuffmanNode → Option (HuffmanNode × List HuffmanNode)
  | [] => none
  | x :: xs =>
    match popMax xs with
    | none => some (x, [])
    | some (m, rest) =>
      if x.hGreater m then some (x, xs) else some (m, x :: rest)

/-- Embedding of the tree-building loop of `FIELD_PATH_HUFFMAN`
(src/src/entity/fieldpath.rs lines 404-436): while more than one tree
remains, pop the two greatest (lightest) nodes `a` then `b` and push an
internal node with `a` as the left child, `b` as the right child and the
next value counter (starting at 40).  The fuel (39 iterations are needed)
only bounds the recursion. -/
def buildHuffman : Nat → Nat → List HuffmanNode → HuffmanNode
  | 0, _, l =>
    match l with
    | [x] => x
    | _ => .leaf 0 0 0
  | fuel + 1, n, l =>
    match l with
    | [x] => x
    | _ =>
      match popMax l with
      | none => .leaf 0 0 0
      | some (a, l1) =>
        match popMax l1 with
        | none => a
        | some (b, l2) =>
          buildHuffman fuel (n + 1) (.node (a.weight + b.weight) n a b :: l2)

/-- The initial heap: one leaf per opcode, weight `max w 1`, value = index. -/
def initialHuffmanLeaves : List HuffmanNode :=
  FIELD_PATH_OPS.enum.map (fun iv => .leaf (Nat.max iv.2.1 1) iv.1 iv.1)

def FIELD_PATH_HUFFMAN : HuffmanNode := buildHuffman 64 40 initialHuffmanLeaves

/-- Dispatch from a leaf's opcode index to its op function (the leaf stores
the `fn` pointer in the source; the model stores the index into
`FIELD_PATH_OPS`). -/
def applyOp (i : Nat) : FieldPathOp :=
  match FIELD_PATH_OPS.get? i with
  | some wop => wop.2
  | none => fun _ _ => .error "invalid opcode"

/-- Embedding of the `read_field_paths` loop (src/src/entity/fieldpath.rs
lines 438-473): while not done, read a bit, walk right (1) or left (0); a
missing child is the fatal "Invalid field path huffman tree" error; on a
leaf, reset to the root, run the opcode, and record a snapshot of the path
unless the opcode finished.  The result carries the recorded snapshots, the
final path state, and the remaining bits.  Each iteration consumes one bit,
so fuel `length + 1` never exhausts before end-of-stream. -/
def readFieldPathsGo : Nat → HuffmanNode → FieldPath → List FieldPath →
    List Bool → Except Err (List FieldPath × FieldPath × List Bool)
  | 0, _, _, _, _ => .error "fuel exhausted"
  | fuel + 1, nd, p, acc, s =>
    if p.is_done then .ok (acc, p, s)
    else
      match s with
      | [] => .error eofErr
      | b :: s =>
        match (if b then nd.rightChild else nd.leftChild) with
        | none => .error "Invalid field path huffman tree"
        | some next =>
          match next with
          | .leaf _ _ opIdx =>
            match applyOp opIdx s p with
            | .error e => .error e
            | .ok (p, s) =>
              if p.is_done then readFieldPathsGo fuel FIELD_PATH_HUFFMAN p acc s
              else readFieldPathsGo fuel FIELD_PATH_HUFFMAN p (acc ++ [p]) s
          | .node _ _ _ _ => readFieldPathsGo fuel next p acc s

/-- Embedding of `read_field_paths`, starting from the default path at the
tree root with an empty snapshot list. -/
def read_field_paths (s : List Bool) :
    Except Err (List FieldPath × FieldPath × List Bool) :=
  readFieldPathsGo (s.length + 1) FIELD_PATH_HUFFMAN DEFAULT_FIELD_PATH [] s

/-- Decidable observation of a `read_field_paths` run: (final `last`, final
`is_done`), and per recorded snapshot its `last` and its `to_slice` view. -/
def fpObs (s : List Bool) : Option ((Nat × Bool) × List (Nat × List Int)) :=
  (read_field_paths s).toOption.map fun r =>
    ((r.2.1.last, r.2.1.is_done), r.1.map fun p => (p.last, p.toSlice))

/-! ### Bound preservation: every opcode keeps `last ≤ 6` on success

The kernel invariant behind C1: each successful opcode application leaves
`last` at most 6 — pushes force it through the guarded write at the new
`last`, pops only decrease it, and the remaining ops do not change it. -/

lemma bind_ok {γ δ : Type} {m : Except Err γ} {f : γ → Except Err δ} {r : δ}
    (h : (m >>= f) = .ok r) : ∃ x, m = .ok x ∧ f x = .ok r := by
  cases m with
  | error e => simp [Bind.bind, Except.bind] at h
  | ok x => exact ⟨x, rfl, by simpa [Bind.bind, Except.bind] using h⟩

namespace FieldPath

lemma setAt_ok {p : FieldPath} {i : Nat} {v : Int} {p2 : FieldPath}
    (h : p.setAt i v = .ok p2) : p2.last = p.last ∧ i < 7 := by
  unfold setAt at h
  split at h
  · injection h with h
    subst h
    exact ⟨rfl, by assumption⟩
  · exact Except.noConfusion h

lemma addAt_ok {p : FieldPath} {i : Nat} {v : Int} {p2 : FieldPath}
    (h : p.addAt i v = .ok p2) : p2.last = p.last := by
  unfold addAt at h
  obtain ⟨x, _, h⟩ := bind_ok h
  exact (setAt_ok h).1

lemma pushBack_ok {p : FieldPath} {v : Int} {p2 : FieldPath}
    (h : p.pushBack v = .ok p2) : p2.last = p.last + 1 ∧ p2.last ≤ 6 := by
  unfold pushBack at h
  obtain ⟨h1, h2⟩ := setAt_ok h
  dsimp only at h1 h2
  omega

lemma zeroFrom_ok : ∀ {l : List Nat} {p p2 : FieldPath},
    p.zeroFrom l = .ok p2 → p2.last = p.last := by
  intro l
  induction l with
  | nil =>
    intro p p2 h
    unfold zeroFrom at h
    injection h with h
    rw [h]
  | cons i rest ih =>
    intro p p2 h
    unfold zeroFrom at h
    obtain ⟨p1, hs, h⟩ := bind_ok h
    rw [ih h, (setAt_ok hs).1]

lemma pop_ok {p : FieldPath} {q : Nat} {p2 : FieldPath}
    (h : p.pop q = .ok p2) : p2.last = p.last - q % 256 := by
  unfold pop at h
  obtain ⟨p1, _, h⟩ := bind_ok h
  injection h with h
  subst h
  rfl

end FieldPath

lemma pushLoop_wf {rd : List Bool → Except Err (Int × List Bool)} :
    ∀ {n : Nat} {s : List Bool} {p : FieldPath}
      {r : FieldPath × List Bool},
      pushLoop rd n s p = .ok r → p.last ≤ 6 → r.1.last ≤ 6 := by
  intro n
  induction n with
  | zero =>
    intro s p r h hp
    unfold pushLoop at h
    injection h with h
    rw [← h]
    exact hp
  | succ n ih =>
    intro s p r h hp
    unfold pushLoop at h
    obtain ⟨⟨v, s1⟩, _, h⟩ := bind_ok h
    obtain ⟨p1, hpb, h⟩ := bind_ok h
    exact ih h (FieldPath.pushBack_ok hpb).2

lemma nonTopoLoop_ok {rd : List Bool → Except Err (Int × List Bool)} :
    ∀ {l : List Nat} {s : List Bool} {p : FieldPath}
      {r : FieldPath × List Bool},
      nonTopoLoop rd l s p = .ok r → r.1.last = p.last := by
  intro l
  induction l with
  | nil =>
    intro s p r h
    unfold nonTopoLoop at h
    injection h with h
    rw [← h]
  | cons i rest ih =>
    intro s p r h
    unfold nonTopoLoop at h
    obtain ⟨⟨b, s1⟩, _, h⟩ := bind_ok h
    cases b with
    | true =>
      dsimp only at h
      rw [if_pos rfl] at h
      obtain ⟨⟨v, s2⟩, _, h⟩ := bind_ok h
      obtain ⟨p1, ha, h⟩ := bind_ok h
      rw [ih h, FieldPath.addAt_ok ha]
    | false =>
      dsimp only at h
      rw [if_neg (by simp)] at h
      exact ih h

theorem opPlusOne_wf {s : List Bool} {p : FieldPath} {r : FieldPath × List Bool}
    (h : opPlusOne s p = .ok r) (hp : p.last ≤ 6) : r.1.last ≤ 6 := by
  unfold opPlusOne at h
  obtain ⟨p1, ha, h⟩ := bind_ok h
  injection h with h
  subst h
  rw [FieldPath.addAt_ok ha]
  exact hp

theorem opPushTwoLeftDeltaZero_wf {s : List Bool} {p : FieldPath}
    {r : FieldPath × List Bool}
    (h : opPushTwoLeftDeltaZero s p = .ok r) (hp : p.last ≤ 6) : r.1.last ≤ 6 := by
  unfold opPushTwoLeftDeltaZero at h
  obtain ⟨⟨v, s1⟩, _, h⟩ := bind_ok h
  obtain ⟨p1, _, h⟩ := bind_ok h
  obtain ⟨⟨w, s2⟩, _, h⟩ := bind_ok h
  obtain ⟨p2, hpb, h⟩ := bind_ok h
  injection h with h
  subst h
  exact (FieldPath.pushBack_ok hpb).2

theorem opPlusTwo_wf {s : List Bool} {p : FieldPath} {r : FieldPath × List Bool}
    (h : opPlusTwo s p = .ok r) (hp : p.last ≤ 6) : r.1.last ≤ 6 := by
  unfold opPlusTwo at h
  obtain ⟨p1, ha, h⟩ := bind_ok h
  injection h with h
  subst h
  rw [FieldPath.addAt_ok ha]
  exact hp

theorem opPlusThree_wf {s : List Bool} {p : FieldPath} {r : FieldPath × List Bool}
    (h : opPlusThree s p = .ok r) (hp : p.last ≤ 6) : r.1.last ≤ 6 := by
  unfold opPlusThree at h
  obtain ⟨p1, ha, h⟩ := bind_ok h
  injection h with h
  subst h
  rw [FieldPath.addAt_ok ha]
  exact hp

theorem opPlusFour_wf {s : List Bool} {p : FieldPath} {r : FieldPath × List Bool}
    (h : opPlusFour s p = .ok r) (hp : p.last ≤ 6) : r.1.last ≤ 6 := by
  unfold opPlusFour at h
  obtain ⟨p1, ha, h⟩ := bind_ok h
  injection h with h
  subst h
  rw [FieldPath.addAt_ok ha]
  exact hp

theorem opPlusN_wf {s : List Bool} {p : FieldPath} {r : FieldPath × List Bool}
    (h : opPlusN s p = .ok r) (hp : p.last ≤ 6) : r.1.last ≤ 6 := by
  unfold opPlusN at h
  obtain ⟨⟨v, s1⟩, _, h⟩ := bind_ok h
  obtain ⟨p1, ha, h⟩ := bind_ok h
  injection h with h
  subst h
  rw [FieldPath.addAt_ok ha]
  exact hp

theorem opPushOneLeftDeltaZeroRightZero_wf {s : List Bool} {p : FieldPath}
    {r : FieldPath × List Bool}
    (h : opPushOneLeftDeltaZeroRightZero s p = .ok r) (hp : p.last ≤ 6) :
    r.1.last ≤ 6 := by
  unfold opPushOneLeftDeltaZeroRightZero at h
  obtain ⟨p1, hpb, h⟩ := bind_ok h
  injection h with h
  subst h
  exact (FieldPath.pushBack_ok hpb).2

theorem opPushOneLeftDeltaZeroRightNonZero_wf {s : List Bool} {p : FieldPath}
    {r : FieldPath × List Bool}
    (h : opPushOneLeftDeltaZeroRightNonZero s p = .ok r) (hp : p.last ≤ 6) :
    r.1.last ≤ 6 := by
  unfold opPushOneLeftDeltaZeroRightNonZero at h
  obtain ⟨⟨v, s1⟩, _, h⟩ := bind_ok h
  obtain ⟨p1, hpb, h⟩ := bind_ok h
  injection h with h
  subst h
  exact (FieldPath.pushBack_ok hpb).2

theorem opPushOneLeftDeltaOneRightZero_wf {s : List Bool} {p : FieldPath}
    {r : FieldPath × List Bool}
    (h : opPushOneLeftDeltaOneRightZero s p = .ok r) (hp : p.last ≤ 6) :
    r.1.last ≤ 6 := by
  unfold opPushOneLeftDeltaOneRightZero at h
  obtain ⟨p1, _, h⟩ := bind_ok h
  obtain ⟨p2, hpb, h⟩ := bind_ok h
  injection h with h
  subst h
  exact (FieldPath.pushBack_ok hpb).2

theorem opPushOneLeftDeltaOneRightNonZero_wf {s : List Bool} {p : FieldPath}
    {r : FieldPath × List Bool}
    (h : opPushOneLeftDeltaOneRightNonZero s p = .ok r) (hp : p.last ≤ 6) :
    r.1.last ≤ 6 := by
  unfold opPushOneLeftDeltaOneRightNonZero at h
  obtain ⟨p1, _, h⟩ := bind_ok h
  obtain ⟨⟨v, s1⟩, _, h⟩ := bind_ok h
  obtain ⟨p2, hpb, h⟩ := bind_ok h
  injection h with h
  subst h
  exact (FieldPath.pushBack_ok hpb).2

theorem opPushOneLeftDeltaNRightZero_wf {s : List Bool} {p : FieldPath}
    {r : FieldPath × List Bool}
    (h : opPushOneLeftDeltaNRightZero s p = .ok r) (hp : p.last ≤ 6) :
    r.1.last ≤ 6 := by
  unfold opPushOneLeftDeltaNRightZero at h
  obtain ⟨⟨v, s1⟩, _, h⟩ := bind_ok h
  obtain ⟨p1, _, h⟩ := bind_ok h
  obtain ⟨p2, hpb, h⟩ := bind_ok h
  injection h with h
  subst h
  exact (FieldPath.pushBack_ok hpb).2

theorem opPushOneLeftDeltaNRightNonZero_wf {s : List Bool} {p : FieldPath}
    {r : FieldPath × List Bool}
    (h : opPushOneLeftDeltaNRightNonZero s p = .ok r) (hp : p.last ≤ 6) :
    r.1.last ≤ 6 := by
  unfold opPushOneLeftDeltaNRightNonZero at h
  obtain ⟨⟨v, s1⟩, _, h⟩ := bind_ok h
  obtain ⟨p1, _, h⟩ := bind_ok h
  obtain ⟨⟨w, s2⟩, _, h⟩ := bind_ok h
  obtain ⟨p2, hpb, h⟩ := bind_ok h
  injection h with h
  subst h
  exact (FieldPath.pushBack_ok hpb).2

theorem opPushOneLeftDeltaNRightNonZeroPack6Bits_wf {s : List Bool} {p : FieldPath}
    {r : FieldPath × List Bool}
    (h : opPushOneLeftDeltaNRightNonZeroPack6Bits s p = .ok r) (hp : p.last ≤ 6) :
    r.1.last ≤ 6 := by
  unfold opPushOneLeftDeltaNRightNonZeroPack6Bits at h
  obtain ⟨⟨v, s1⟩, _, h⟩ := bind_ok h
  obtain ⟨p1, _, h⟩ := bind_ok h
  obtain ⟨⟨w, s2⟩, _, h⟩ := bind_ok h
  obtain ⟨p2, hpb, h⟩ := bind_ok h
  injection h with h
  subst h
  exact (FieldPath.pushBack_ok hpb).2

theorem opPushOneLeftDeltaNRightNonZeroPack8Bits_wf {s : List Bool} {p : FieldPath}
    {r : FieldPath × List Bool}
    (h : opPushOneLeftDeltaNRightNonZeroPack8Bits s p = .ok r) (hp : p.last ≤ 6) :
    r.1.last ≤ 6 := by
  unfold opPushOneLeftDeltaNRightNonZeroPack8Bits at h
  obtain ⟨⟨v, s1⟩, _, h⟩ := bind_ok h
  obtain ⟨p1, _, h⟩ := bind_ok h
  obtain ⟨⟨w, s2⟩, _, h⟩ := bind_ok h
  obtain ⟨p2, hpb, h⟩ := bind_ok h
  injection h with h
  subst h
  exact (FieldPath.pushBack_ok hpb).2

theorem opPushTwoPack5LeftDeltaZero_wf {s : List Bool} {p : FieldPath}
    {r : FieldPath × List Bool}
    (h : opPushTwoPack5LeftDeltaZero s p = .ok r) (hp : p.last ≤ 6) :
    r.1.last ≤ 6 := by
  unfold opPushTwoPack5LeftDeltaZero at h
  obtain ⟨⟨v, s1⟩, _, h⟩ := bind_ok h
  obtain ⟨p1, _, h⟩ := bind_ok h
  obtain ⟨⟨w, s2⟩, _, h⟩ := bind_ok h
  obtain ⟨p2, hpb, h⟩ := bind_ok h
  injection h with h
  subst h
  exact (FieldPath.pushBack_ok hpb).2

theorem opPushThreeLeftDeltaZero_wf {s : List Bool} {p : FieldPath}
    {r : FieldPath × List Bool}
    (h : opPushThreeLeftDeltaZero s p = .ok r) (hp : p.last ≤ 6) :
    r.1.last ≤ 6 := by
  unfold opPushThreeLeftDeltaZero at h
  obtain ⟨⟨v, s1⟩, _, h⟩ := bind_ok h
  obtain ⟨p1, _, h⟩ := bind_ok h
  obtain ⟨⟨w, s2⟩, _, h⟩ := bind_ok h
  obtain ⟨p2, _, h⟩ := bind_ok h
  obtain ⟨⟨x, s3⟩, _, h⟩ := bind_ok h
  obtain ⟨p3, hpb, h⟩ := bind_ok h
  injection h with h
  subst h
  exact (FieldPath.pushBack_ok hpb).2

theorem opPushThreePack5LeftDeltaZero_wf {s : List Bool} {p : FieldPath}
    {r : FieldPath × List Bool}
    (h : opPushThreePack5LeftDeltaZero s p = .ok r) (hp : p.last ≤ 6) :
    r.1.last ≤ 6 := by
  unfold opPushThreePack5LeftDeltaZero at h
  obtain ⟨⟨v, s1⟩, _, h⟩ := bind_ok h
  obtain ⟨p1, _, h⟩ := bind_ok h
  obtain ⟨⟨w, s2⟩, _, h⟩ := bind_ok h
  obtain ⟨p2, _, h⟩ := bind_ok h
  obtain ⟨⟨x, s3⟩, _, h⟩ := bind_ok h
  obtain ⟨p3, hpb, h⟩ := bind_ok h
  injection h with h
  subst h
  exact (FieldPath.pushBack_ok hpb).2

theorem opPushTwoLeftDeltaOne_wf {s : List Bool} {p : FieldPath}
    {r : FieldPath × List Bool}
    (h : opPushTwoLeftDeltaOne s p = .ok r) (hp : p.last ≤ 6) : r.1.last ≤ 6 := by
  unfold opPushTwoLeftDeltaOne at h
  obtain ⟨p0, _, h⟩ := bind_ok h
  obtain ⟨⟨v, s1⟩, _, h⟩ := bind_ok h
  obtain ⟨p1, _, h⟩ := bind_ok h
  obtain ⟨⟨w, s2⟩, _, h⟩ := bind_ok h
  obtain ⟨p2, hpb, h⟩ := bind_ok h
  injection h with h
  subst h
  exact (FieldPath.pushBack_ok hpb).2

theorem opPushTwoPack5LeftDeltaOne_wf {s : List Bool} {p : FieldPath}
    {r : FieldPath × List Bool}
    (h : opPushTwoPack5LeftDeltaOne s p = .ok r) (hp : p.last ≤ 6) :
    r.1.last ≤ 6 := by
  unfold opPushTwoPack5LeftDeltaOne at h
  obtain ⟨p0, _, h⟩ := bind_ok h
  obtain ⟨⟨v, s1⟩, _, h⟩ := bind_ok h
  obtain ⟨p1, _, h⟩ := bind_ok h
  obtain ⟨⟨w, s2⟩, _, h⟩ := bind_ok h
  obtain ⟨p2, hpb, h⟩ := bind_ok h
  injection h with h
  subst h
  exact (FieldPath.pushBack_ok hpb).2

theorem opPushThreeLeftDeltaOne_wf {s : List Bool} {p : FieldPath}
    {r : FieldPath × List Bool}
    (h : opPushThreeLeftDeltaOne s p = .ok r) (hp : p.last ≤ 6) : r.1.last ≤ 6 := by
  unfold opPushThreeLeftDeltaOne at h
  obtain ⟨p0, _, h⟩ := bind_ok h
  obtain ⟨⟨v, s1⟩, _, h⟩ := bind_ok h
  obtain ⟨p1, _, h⟩ := bind_ok h
  obtain ⟨⟨w, s2⟩, _, h⟩ := bind_ok h
  obtain ⟨p2, _, h⟩ := bind_ok h
  obtain ⟨⟨x, s3⟩, _, h⟩ := bind_ok h
  obtain ⟨p3, hpb, h⟩ := bind_ok h
  injection h with h
  subst h
  exact (FieldPath.pushBack_ok hpb).2

theorem opPushThreePack5LeftDeltaOne_wf {s : List Bool} {p : FieldPath}
    {r : FieldPath × List Bool}
    (h : opPushThreePack5LeftDeltaOne s p = .ok r) (hp : p.last ≤ 6) :
    r.1.last ≤ 6 := by
  unfold opPushThreePack5LeftDeltaOne at h
  obtain ⟨p0, _, h⟩ := bind_ok h
  obtain ⟨⟨v, s1⟩, _, h⟩ := bind_ok h
  obtain ⟨p1, _, h⟩ := bind_ok h
  obtain ⟨⟨w, s2⟩, _, h⟩ := bind_ok h
  obtain ⟨p2, _, h⟩ := bind_ok h
  obtain ⟨⟨x, s3⟩, _, h⟩ := bind_ok h
  obtain ⟨p3, hpb, h⟩ := bind_ok h
  injection h with h
  subst h
  exact (FieldPath.pushBack_ok hpb).2

theorem opPushTwoLeftDeltaN_wf {s : List Bool} {p : FieldPath}
    {r : FieldPath × List Bool}
    (h : opPushTwoLeftDeltaN s p = .ok r) (hp : p.last ≤ 6) : r.1.last ≤ 6 := by
  unfold opPushTwoLeftDeltaN at h
  obtain ⟨⟨n, s0⟩, _, h⟩ := bind_ok h
  obtain ⟨p0, _, h⟩ := bind_ok h
  obtain ⟨⟨v, s1⟩, _, h⟩ := bind_ok h
  obtain ⟨p1, _, h⟩ := bind_ok h
  obtain ⟨⟨w, s2⟩, _, h⟩ := bind_ok h
  obtain ⟨p2, hpb, h⟩ := bind_ok h
  injection h with h
  subst h
  exact (FieldPath.pushBack_ok hpb).2

theorem opPushTwoPack5LeftDeltaN_wf {s : List Bool} {p : FieldPath}
    {r : FieldPath × List Bool}
    (h : opPushTwoPack5LeftDeltaN s p = .ok r) (hp : p.last ≤ 6) :
    r.1.last ≤ 6 := by
  unfold opPushTwoPack5LeftDeltaN at h
  obtain ⟨⟨n, s0⟩, _, h⟩ := bind_ok h
  obtain ⟨p0, _, h⟩ := bind_ok h
  obtain ⟨⟨v, s1⟩, _, h⟩ := bind_ok h
  obtain ⟨p1, _, h⟩ := bind_ok h
  obtain ⟨⟨w, s2⟩, _, h⟩ := bind_ok h
  obtain ⟨p2, hpb, h⟩ := bind_ok h
  injection h with h
  subst h
  exact (FieldPath.pushBack_ok hpb).2

theorem opPushThreeLeftDeltaN_wf {s : List Bool} {p : FieldPath}
    {r : FieldPath × List Bool}
    (h : opPushThreeLeftDeltaN s p = .ok r) (hp : p.last ≤ 6) : r.1.last ≤ 6 := by
  unfold opPushThreeLeftDeltaN at h
  obtain ⟨⟨n, s0⟩, _, h⟩ := bind_ok h
  obtain ⟨p0, _, h⟩ := bind_ok h
  obtain ⟨⟨v, s1⟩, _, h⟩ := bind_ok h
  obtain ⟨p1, _, h⟩ := bind_ok h
  obtain ⟨⟨w, s2⟩, _, h⟩ := bind_ok h
  obtain ⟨p2, _, h⟩ := bind_ok h
  obtain ⟨⟨x, s3⟩, _, h⟩ := bind_ok h
  obtain ⟨p3, hpb, h⟩ := bind_ok h
  injection h with h
  subst h
  exact (FieldPath.pushBack_ok hpb).2

theorem opPushThreePack5LeftDeltaN_wf {s : List Bool} {p : FieldPath}
    {r : FieldPath × List Bool}
    (h : opPushThreePack5LeftDeltaN s p = .ok r) (hp : p.last ≤ 6) :
    r.1.last ≤ 6 := by
  unfold opPushThreePack5LeftDeltaN at h
  obtain ⟨⟨n, s0⟩, _, h⟩ := bind_ok h
  obtain ⟨p0, _, h⟩ := bind_ok h
  obtain ⟨⟨v, s1⟩, _, h⟩ := bind_ok h
  obtain ⟨p1, _, h⟩ := bind_ok h
  obtain ⟨⟨w, s2⟩, _, h⟩ := bind_ok h
  obtain ⟨p2, _, h⟩ := bind_ok h
  obtain ⟨⟨x, s3⟩, _, h⟩ := bind_ok h
  obtain ⟨p3, hpb, h⟩ := bind_ok h
  injection h with h
  subst h
  exact (FieldPath.pushBack_ok hpb).2

theorem opPushN_wf {s : List Bool} {p : FieldPath} {r : FieldPath × List Bool}
    (h : opPushN s p = .ok r) (hp : p.last ≤ 6) : r.1.last ≤ 6 := by
  unfold opPushN at h
  obtain ⟨⟨n, s1⟩, _, h⟩ := bind_ok h
  obtain ⟨⟨d, s2⟩, _, h⟩ := bind_ok h
  obtain ⟨p1, ha, h⟩ := bind_ok h
  exact pushLoop_wf h (le_of_eq_of_le (FieldPath.addAt_ok ha) hp)

theorem opPushNAndNonTopological_wf {s : List Bool} {p : FieldPath}
    {r : FieldPath × List Bool}
    (h : opPushNAndNonTopological s p = .ok r) (hp : p.last ≤ 6) :
    r.1.last ≤ 6 := by
  unfold opPushNAndNonTopological at h
  obtain ⟨⟨p1, s1⟩, hnt, h⟩ := bind_ok h
  obtain ⟨⟨count, s2⟩, _, h⟩ := bind_ok h
  exact pushLoop_wf h (le_of_eq_of_le (nonTopoLoop_ok hnt) hp)

theorem opPopOnePlusOne_wf {s : List Bool} {p : FieldPath}
    {r : FieldPath × List Bool}
    (h : opPopOnePlusOne s p = .ok r) (hp : p.last ≤ 6) : r.1.last ≤ 6 := by
  unfold opPopOnePlusOne at h
  obtain ⟨p1, hpp, h⟩ := bind_ok h
  obtain ⟨p2, ha, h⟩ := bind_ok h
  injection h with h
  subst h
  have h1 := FieldPath.pop_ok hpp
  have h2 := FieldPath.addAt_ok ha
  simp only []
  omega

theorem opPopOnePlusN_wf {s : List Bool} {p : FieldPath}
    {r : FieldPath × List Bool}
    (h : opPopOnePlusN s p = .ok r) (hp : p.last ≤ 6) : r.1.last ≤ 6 := by
  unfold opPopOnePlusN at h
  obtain ⟨p1, hpp, h⟩ := bind_ok h
  obtain ⟨⟨v, s1⟩, _, h⟩ := bind_ok h
  obtain ⟨p2, ha, h⟩ := bind_ok h
  injection h with h
  subst h
  have h1 := FieldPath.pop_ok hpp
  have h2 := FieldPath.addAt_ok ha
  simp only []
  omega

theorem opPopAllButOnePlusOne_wf {s : List Bool} {p : FieldPath}
    {r : FieldPath × List Bool}
    (h : opPopAllButOnePlusOne s p = .ok r) (hp : p.last ≤ 6) : r.1.last ≤ 6 := by
  unfold opPopAllButOnePlusOne at h
  obtain ⟨p1, hpp, h⟩ := bind_ok h
  obtain ⟨p2, ha, h⟩ := bind_ok h
  injection h with h
  subst h
  have h1 := FieldPath.pop_ok hpp
  have h2 := FieldPath.addAt_ok ha
  simp only []
  omega

theorem opPopAllButOnePlusN_wf {s : List Bool} {p : FieldPath}
    {r : FieldPath × List Bool}
    (h : opPopAllButOnePlusN s p = .ok r) (hp : p.last ≤ 6) : r.1.last ≤ 6 := by
  unfold opPopAllButOnePlusN at h
  obtain ⟨p1, hpp, h⟩ := bind_ok h
  obtain ⟨⟨v, s1⟩, _, h⟩ := bind_ok h
  obtain ⟨p2, ha, h⟩ := bind_ok h
  injection h with h
  subst h
  have h1 := FieldPath.pop_ok hpp
  have h2 := FieldPath.addAt_ok ha
  simp only []
  omega

theorem opPopAllButOnePlusNPack3Bits_wf {s : List Bool} {p : FieldPath}
    {r : FieldPath × List Bool}
    (h : opPopAllButOnePlusNPack3Bits s p = .ok r) (hp : p.last ≤ 6) :
    r.1.last ≤ 6 := by
  unfold opPopAllButOnePlusNPack3Bits at h
  obtain ⟨p1, hpp, h⟩ := bind_ok h
  obtain ⟨⟨v, s1⟩, _, h⟩ := bind_ok h
  obtain ⟨p2, ha, h⟩ := bind_ok h
  injection h with h
  subst h
  have h1 := FieldPath.pop_ok hpp
  have h2 := FieldPath.addAt_ok ha
  simp only []
  omega

theorem opPopAllButOnePlusNPack6Bits_wf {s : List Bool} {p : FieldPath}
    {r : FieldPath × List Bool}
    (h : opPopAllButOnePlusNPack6Bits s p = .ok r) (hp : p.last ≤ 6) :
    r.1.last ≤ 6 := by
  unfold opPopAllButOnePlusNPack6Bits at h
  obtain ⟨p1, hpp, h⟩ := bind_ok h
  obtain ⟨⟨v, s1⟩, _, h⟩ := bind_ok h
  obtain ⟨p2, ha, h⟩ := bind_ok h
  injection h with h
  subst h
  have h1 := FieldPath.pop_ok hpp
  have h2 := FieldPath.addAt_ok ha
  simp only []
  omega

theorem opPopNPlusOne_wf {s : List Bool} {p : FieldPath}
    {r : FieldPath × List Bool}
    (h : opPopNPlusOne s p = .ok r) (hp : p.last ≤ 6) : r.1.last ≤ 6 := by
  unfold opPopNPlusOne at h
  obtain ⟨⟨v, s1⟩, _, h⟩ := bind_ok h
  obtain ⟨p1, hpp, h⟩ := bind_ok h
  obtain ⟨p2, ha, h⟩ := bind_ok h
  injection h with h
  subst h
  have h1 := FieldPath.pop_ok hpp
  have h2 := FieldPath.addAt_ok ha
  simp only []
  omega

theorem opPopNPlusN_wf {s : List Bool} {p : FieldPath}
    {r : FieldPath × List Bool}
    (h : opPopNPlusN s p = .ok r) (hp : p.last ≤ 6) : r.1.last ≤ 6 := by
  unfold opPopNPlusN at h
  obtain ⟨⟨v, s1⟩, _, h⟩ := bind_ok h
  obtain ⟨p1, hpp, h⟩ := bind_ok h
  obtain ⟨⟨w, s2⟩, _, h⟩ := bind_ok h
  obtain ⟨p2, ha, h⟩ := bind_ok h
  injection h with h
  subst h
  have h1 := FieldPath.pop_ok hpp
  have h2 := FieldPath.addAt_ok ha
  simp only []
  omega

theorem opPopNAndNonTopographical_wf {s : List Bool} {p : FieldPath}
    {r : FieldPath × List Bool}
    (h : opPopNAndNonTopographical s p = .ok r) (hp : p.last ≤ 6) :
    r.1.last ≤ 6 := by
  unfold opPopNAndNonTopographical at h
  obtain ⟨⟨v, s1⟩, _, h⟩ := bind_ok h
  obtain ⟨p1, hpp, h⟩ := bind_ok h
  have h1 := FieldPath.pop_ok hpp
  have h2 := nonTopoLoop_ok h
  omega

theorem opNonTopoComplex_wf {s : List Bool} {p : FieldPath}
    {r : FieldPath × List Bool}
    (h : opNonTopoComplex s p = .ok r) (hp : p.last ≤ 6) : r.1.last ≤ 6 := by
  unfold opNonTopoComplex at h
  have h2 := nonTopoLoop_ok h
  omega

theorem opNonTopoPenultimatePlusOne_wf {s : List Bool} {p : FieldPath}
    {r : FieldPath × List Bool}
    (h : opNonTopoPenultimatePlusOne s p = .ok r) (hp : p.last ≤ 6) :
    r.1.last ≤ 6 := by
  unfold opNonTopoPenultimatePlusOne at h
  dsimp only at h
  by_cases hl : p.last > 0
  · rw [if_pos hl] at h
    obtain ⟨p1, ha, h⟩ := bind_ok h
    injection h with h
    subst h
    rw [FieldPath.addAt_ok ha]
    exact hp
  · rw [if_neg hl] at h
    obtain ⟨p1, hh, h⟩ := bind_ok h
    injection h with h
    subst h
    injection hh with hh
    rw [← hh]
    exact hp

theorem opNonTopoComplexPack4Bits_wf {s : List Bool} {p : FieldPath}
    {r : FieldPath × List Bool}
    (h : opNonTopoComplexPack4Bits s p = .ok r) (hp : p.last ≤ 6) :
    r.1.last ≤ 6 := by
  unfold opNonTopoComplexPack4Bits at h
  have h2 := nonTopoLoop_ok h
  omega

theorem opFieldPathEncodeFinish_wf {s : List Bool} {p : FieldPath}
    {r : FieldPath × List Bool}
    (h : opFieldPathEncodeFinish s p = .ok r) (hp : p.last ≤ 6) :
    r.1.last ≤ 6 := by
  unfold opFieldPathEncodeFinish at h
  injection h with h
  subst h
  exact hp

/-- Any successful opcode dispatch preserves `last ≤ 6`: case split over the
40 entries of `FIELD_PATH_OPS`; an out-of-range index is the error case. -/
theorem applyOp_wf {i : Nat} {s : List Bool} {p : FieldPath}
    {r : FieldPath × List Bool}
    (h : applyOp i s p = .ok r) (hp : p.last ≤ 6) : r.1.last ≤ 6 := by
  by_cases hi : i < 40
  · interval_cases i
    · exact opPlusOne_wf h hp
    · exact opPlusTwo_wf h hp
    · exact opPlusThree_wf h hp
    · exact opPlusFour_wf h hp
    · exact opPlusN_wf h hp
    · exact opPushOneLeftDeltaZeroRightZero_wf h hp
    · exact opPushOneLeftDeltaZeroRightNonZero_wf h hp
    · exact opPushOneLeftDeltaOneRightZero_wf h hp
    · exact opPushOneLeftDeltaOneRightNonZero_wf h hp
    · exact opPushOneLeftDeltaNRightZero_wf h hp
    · exact opPushOneLeftDeltaNRightNonZero_wf h hp
    · exact opPushOneLeftDeltaNRightNonZeroPack6Bits_wf h hp
    · exact opPushOneLeftDeltaNRightNonZeroPack8Bits_wf h hp
    · exact opPushTwoLeftDeltaZero_wf h hp
    · exact opPushTwoPack5LeftDeltaZero_wf h hp
    · exact opPushThreeLeftDeltaZero_wf h hp
    · exact opPushThreePack5LeftDeltaZero_wf h hp
    · exact opPushTwoLeftDeltaOne_wf h hp
    · exact opPushTwoPack5LeftDeltaOne_wf h hp
    · exact opPushThreeLeftDeltaOne_wf h hp
    · exact opPushThreePack5LeftDeltaOne_wf h hp
    · exact opPushTwoLeftDeltaN_wf h hp
    · exact opPushTwoPack5LeftDeltaN_wf h hp
    · exact opPushThreeLeftDeltaN_wf h hp
    · exact opPushThreePack5LeftDeltaN_wf h hp
    · exact opPushN_wf h hp
    · exact opPushNAndNonTopological_wf h hp
    · exact opPopOnePlusOne_wf h hp
    · exact opPopOnePlusN_wf h hp
    · exact opPopAllButOnePlusOne_wf h hp
    · exact opPopAllButOnePlusN_wf h hp
    · exact opPopAllButOnePlusNPack3Bits_wf h hp
    · exact opPopAllButOnePlusNPack6Bits_wf h hp
    · exact opPopNPlusOne_wf h hp
    · exact opPopNPlusN_wf h hp
    · exact opPopNAndNonTopographical_wf h hp
    · exact opNonTopoComplex_wf h hp
    · exact opNonTopoPenultimatePlusOne_wf h hp
    · exact opNonTopoComplexPack4Bits_wf h hp
    · exact opFieldPathEncodeFinish_wf h hp
  · exfalso
    have hlen : FIELD_PATH_OPS.length = 40 := rfl
    have hn : FIELD_PATH_OPS.get? i = none := by
      rw [List.get?_eq_none]
      omega
    rw [applyOp, hn] at h
    exact Except.noConfusion h

/-- Snapshots recorded by the decode loop: the invariant `last ≤ 6` holds for
the final path and every snapshot, by induction on the fuel. -/
theorem readFieldPathsGo_wf :
    ∀ (fuel : Nat) (nd : HuffmanNode) (p : FieldPath) (acc : List FieldPath)
      (s : List Bool) (r : List FieldPath × FieldPath × List Bool),
      readFieldPathsGo fuel nd p acc s = .ok r → p.last ≤ 6 →
      (∀ q ∈ acc, q.last ≤ 6) →
      r.2.1.last ≤ 6 ∧ ∀ q ∈ r.1, q.last ≤ 6 := by
  intro fuel
  induction fuel with
  | zero =>
    intro nd p acc s r h
    exact Except.noConfusion h
  | succ fuel ih =>
    intro nd p acc s r h hp hacc
    rw [readFieldPathsGo.eq_def] at h
    dsimp only at h
    by_cases hd : p.is_done
    · rw [if_pos hd] at h
      injection h with h
      subst h
      exact ⟨hp, hacc⟩
    · rw [if_neg hd] at h
      cases s with
      | nil => exact Except.noConfusion h
      | cons b s =>
        dsimp only at h
        cases hch : (if b then nd.rightChild else nd.leftChild) with
        | none =>
          rw [hch] at h
          exact Except.noConfusion h
        | some next =>
          rw [hch] at h
          cases next with
          | node w v l rr => exact ih _ _ _ _ _ h hp hacc
          | leaf w v opIdx =>
            dsimp only at h
            cases hop : applyOp opIdx s p with
            | error e =>
              rw [hop] at h
              exact Except.noConfusion h
            | ok pr =>
              obtain ⟨p1, s1⟩ := pr
              rw [hop] at h
              dsimp only at h
              have hp1 : p1.last ≤ 6 := applyOp_wf hop hp
              by_cases hdone : p1.is_done
              · rw [if_pos hdone] at h
                exact ih _ _ _ _ _ h hp1 hacc
              · rw [if_neg hdone] at h
                refine ih _ _ _ _ _ h hp1 ?_
                intro q hq
                rcases List.mem_append.mp hq with hq | hq
                · exact hacc q hq
                · rw [List.mem_singleton.mp hq]
                  exact hp1

theorem FieldPath.toSlice_length (p : FieldPath) :
    p.toSlice.length = p.last + 1 := by
  simp [FieldPath.toSlice]

/-- C1 (amended): on every bit stream for which `read_field_paths` succeeds,
the final `last` lies in `[0, 6]` and every recorded snapshot has length
`last + 1` for its recorded `last`, which also lies in `[0, 6]`.  (The
original claim's "all entries non-negative" is refuted by
the run exhibited separately: the initial `-1` at slot 0 can be recorded.) -/
theorem field_path_closure (bits : List Bool)
    (out : (Nat × Bool) × List (Nat × List Int))
    (h : fpObs bits = some out) :
    out.1.1 ≤ 6 ∧ ∀ x ∈ out.2, x.1 ≤ 6 ∧ x.2.length = x.1 + 1 := by
  unfold fpObs at h
  cases hr : read_field_paths bits with
  | error e =>
    rw [hr] at h
    exact Option.noConfusion h
  | ok r =>
    rw [hr] at h
    injection h with h
    have hw := readFieldPathsGo_wf (bits.length + 1) FIELD_PATH_HUFFMAN
      DEFAULT_FIELD_PATH [] bits r hr (by decide)
      (fun q hq => absurd hq (List.not_mem_nil q))
    subst h
    refine ⟨hw.1, ?_⟩
    intro x hx
    rcases List.mem_map.mp hx with ⟨q, hq, rfl⟩
    exact ⟨hw.2 q hq, FieldPath.toSlice_length q⟩

theorem field_path_closure_witness :
    (0 : Nat) ≤ 6 ∧
      ∀ x ∈ [((0 : Nat), ([0] : List Int)), ((0 : Nat), ([1] : List Int))],
        x.1 ≤ 6 ∧ x.2.length = x.1 + 1 :=
  field_path_closure [false, false, true, false]
    ((0, true), [(0, [0]), (0, [1])]) (by decide)

/-- Snapshot entries can be negative: the 9-bit code 110110111 selects
`NonTopoPenultimatePlusOne`, which on the initial path (`last = 0`) mutates
nothing, so the recorded snapshot still holds the initial `-1` at slot 0; the
terminator code 10 then finishes.  This refutes the non-negativity part of
the original claim. -/
theorem field_path_closure_counterexample :
    fpObs [true, true, false, true, true, false, true, true, true, true,
        false] = some ((0, true), [(0, [-1])]) ∧
      ¬ (0 ≤ (-1 : Int)) := by
  exact ⟨by decide, by decide⟩

/-- C3 (amended): `PlusOne` is the single-bit Huffman code 0 (not 11111):
from the default initial path, bit 0 applies `PlusOne` recording exactly the
snapshot `[0]`, and the following terminator code 10
(`FieldPathEncodeFinish`) sets done and exits the loop with no further
snapshot. -/
theorem field_path_fixture :
    fpObs [false, true, false] = some ((0, true), [(0, [0])]) := by
  decide

/-- The bits 11111 do not decode to `PlusOne`: alone they reach
`PushOneLeftDeltaNRightNonZeroPack6Bits` which then hits end-of-stream, and
followed by 00000 plus the terminator 10 they record the snapshot `[2, 1]`
with `last = 1` — not the snapshot `[0]` the original claim asserts. -/
theorem field_path_fixture_counterexample :
    fpObs [true, true, true, true, true] = none ∧
      fpObs [true, true, true, true, true, false, false, false, false, false,
        true, false] = some ((1, true), [(1, [2, 1])]) ∧
      ([((1 : Nat), ([2, 1] : List Int))] ≠ [(0, [0])]) := by
  exact ⟨by decide, by decide, by decide⟩

end DemoInfo
